/-
Verification of the phase-averaging engine of the Actuator-Method-Tools
repository (`src/amtools/post_processing/phase_average.py`).

The two source functions `phase_average_array` (degree-based, scalar) and
`phase_average_field` (unit-cycle, vector/covariance) are embedded below as
executable Lean functions over exact rationals (ℚ stands for the real values
computed by the floating-point code; all inputs used in concrete theorems are
exactly representable).  Conventions of the embedding:

* numpy float `%` is floor-mod (`qmod`), `np.degrees(2*np.pi*f*t)` equals
  `360*f*t` in exact arithmetic;
* `np.digitize(x, bins)` on monotonically non-decreasing `bins` equals the
  number of edges `≤ x` (`digitize` below); all theorems that quantify over
  configurations restrict `bin_center_offset` to at most one bin width, the
  regime in which the shifted edge list is monotone and `np.digitize` is
  defined;
* numpy NaN entries are modelled as `none : Option ℚ`;
* Python exceptions (`ValueError`, `ZeroDivisionError` from `360.0/(nb-1)`,
  `IndexError` from `y_arr[0]` on an empty array, `TypeError` from indexing
  `None`) are modelled by `Except PAError`;
* `np.argsort` on a list with pairwise-distinct keys is the unique sorting
  permutation; the embedding uses a stable insertion sort on (value, index)
  pairs, which coincides with it on distinct keys (all uses below have
  distinct keys, proved where needed);
* `result.phase_averaged_std = np.sqrt(...)` stores an irrational value; the
  embedding stores the radicand (`phase_averaged_var`, the population
  variance, resp. the covariance diagonal), from which the std is the
  pointwise square root; std = 0 iff var = 0;
* the transcendental quantity `np.degrees(np.angle(np.fft.fft(y_arr)[index]))`
  of the spectral corrector is taken as an explicit function parameter
  `spectralAngleDeg`; the rational index selection (`np.fft.fftfreq` and
  `np.argmax` over the tolerance test) is embedded exactly;
* `np.mean(np.diff(t_arr))` telescopes to `(t.last - t.head)/(n-1)`; for
  `n < 2` numpy produces NaN, modelled as `none`, which makes the tolerance
  test fail everywhere exactly as NaN comparisons do.
-/
import Mathlib

namespace Amtools

/-- NaN-capable rational: `none` models a numpy NaN entry. -/
abbrev QN := Option ℚ

/-- Python exceptions that the two engine functions can raise. -/
inductive PAError where
  | valueError
  | zeroDivisionError
  | indexError
  | typeError
  deriving DecidableEq, Repr

/-- Result object of `phase_average_array` (class `PhaseAverageResult`,
restricted to the fields that function fills).  `phase_averaged_var` is the
square of the stored `phase_averaged_std` (population variance). -/
structure PAResult where
  bin_midpoints : List ℚ
  phase_averaged_mean : List ℚ
  phase_averaged_var : List ℚ
  bin_counts : List ℕ
  deriving DecidableEq, Repr

/-- Result object of `phase_average_field`: per-bin mean vectors and
covariance matrices, entries `none` for NaN.  The source additionally stores
`phase_averaged_std = np.sqrt(diagonal(covariance))`, whose radicand is
recoverable from `phase_averaged_covariance`. -/
structure PAFieldResult where
  bin_midpoints : List ℚ
  phase_averaged_mean : List (List QN)
  phase_averaged_covariance : List (List (List QN))
  bin_counts : List ℕ
  deriving DecidableEq, Repr

deriving instance DecidableEq for Except

/-- Floor-mod on rationals; equals Python/numpy `x % p` for floats. -/
def qmod (x p : ℚ) : ℚ := x - p * ⌊x / p⌋

/-- `np.linspace a b num`: `num` evenly spaced points from `a` to `b`. -/
def linspace (a b : ℚ) (num : ℕ) : List ℚ :=
  (List.range num).map (fun (i : ℕ) => a + (b - a) * (i : ℚ) / ((num : ℚ) - 1))

/-- `(bins[1:] + bins[0:-1]) * 0.5`: midpoints of adjacent edge pairs. -/
def midpointsOf (bins : List ℚ) : List ℚ :=
  (bins.zip bins.tail).map (fun pr => (pr.2 + pr.1) * (1/2))

/-- `np.digitize x bins` for monotonically non-decreasing `bins`
(`np.searchsorted(bins, x, side='right')`): the number of edges `≤ x`. -/
def digitize (x : ℚ) (bins : List ℚ) : ℕ :=
  bins.countP (fun b => decide (b ≤ x))

/-- numpy in-place `bins[-1] = v` on a non-empty array. -/
def setLast (l : List ℚ) (v : ℚ) : List ℚ := l.dropLast ++ [v]

/-- `[vals[bin_inds == i] for i in range(1, k + 1)]`: the per-index groups of
`vals` under the elementwise index list `inds`. -/
def groupsByIndex {α : Type} (vals : List α) (inds : List ℕ) (k : ℕ) :
    List (List α) :=
  (List.range' 1 k).map
    (fun i => ((vals.zip inds).filter (fun pr => pr.2 == i)).map (·.1))

/-- The split-wraparound-bin merge:
`binned[-1] = concat(binned[0], binned[-1]); binned = binned[1:]`. -/
def mergeWrap {α : Type} (b : List (List α)) : List (List α) :=
  (b.dropLast ++ [b.headD [] ++ b.getLastD []]).drop 1

/-- `np.mean` of a 1-D array. -/
def npmean (l : List ℚ) : ℚ := l.sum / l.length

/-- Square of `np.std` (population variance, `ddof = 0`). -/
def popVar (l : List ℚ) : ℚ := ((l.map (fun x => (x - npmean l) ^ 2)).sum) / l.length

/-- Lexicographic comparison on (index, value) pairs, by value first. -/
def pairLe (a b : ℕ × ℚ) : Prop := a.2 < b.2 ∨ (a.2 = b.2 ∧ a.1 ≤ b.1)

instance : DecidableRel pairLe := fun a b => by unfold pairLe; infer_instance

instance : IsTotal (ℕ × ℚ) pairLe where
  total a b := by
    rcases lt_trichotomy a.2 b.2 with h | h | h
    · exact Or.inl (Or.inl h)
    · rcases le_total a.1 b.1 with h1 | h1
      · exact Or.inl (Or.inr ⟨h, h1⟩)
      · exact Or.inr (Or.inr ⟨h.symm, h1⟩)
    · exact Or.inr (Or.inl h)

instance : IsTrans (ℕ × ℚ) pairLe where
  trans a b c hab hbc := by
    rcases hab with h1 | ⟨h1, h1'⟩
    · rcases hbc with h2 | ⟨h2, _⟩
      · exact Or.inl (h1.trans h2)
      · exact Or.inl (h2 ▸ h1)
    · rcases hbc with h2 | ⟨h2, h2'⟩
      · exact Or.inl (h1 ▸ h2)
      · exact Or.inr ⟨h1.trans h2, h1'.trans h2'⟩

/-- `np.argsort l` (unique on pairwise-distinct keys): indices that sort `l`,
implemented by a stable sort on (index, value) pairs. -/
def argsort (l : List ℚ) : List ℕ :=
  (l.enum.insertionSort pairLe).map (·.1)

/-- numpy fancy indexing `l[inds]` (all uses have in-range indices). -/
def gather {α : Type} (l : List α) (inds : List ℕ) (d : α) : List α :=
  inds.map (fun i => l.getD i d)

/-- `np.fft.fftfreq n d`: the DFT sample frequencies
`[0, 1, ..., ⌈n/2⌉-1, -⌊n/2⌋, ..., -1] / (n*d)`. -/
def fftfreq (n : ℕ) (d : ℚ) : List ℚ :=
  (List.range n).map
    (fun k => (if k < (n + 1) / 2 then (k : ℚ) else (k : ℚ) - n) / ((n : ℚ) * d))

/-- `np.argmax(np.abs(frequencies - frequency) < 1e-3)`: index of the first
frequency within the tolerance, and `0` when there is none (np.argmax of an
all-False boolean array is 0). -/
def resolveIndex (freqs : List ℚ) (frequency : ℚ) : ℕ :=
  match freqs.findIdx? (fun fr => decide (|fr - frequency| < 1/1000)) with
  | some i => i
  | none => 0

/-- `np.mean(np.diff(t_arr))`, telescoped to `(t.last - t.head)/(n-1)`;
`none` models the NaN numpy produces for arrays of fewer than 2 samples. -/
def meanDiff (t : List ℚ) : Option ℚ :=
  if 2 ≤ t.length then some ((t.getLastD 0 - t.headD 0) / ((t.length : ℚ) - 1))
  else none

/-- The FFT index chosen by the spectral corrector (lines 177–179 of the
source).  When the mean time step is `none` (NaN) or `0`, every entry of
`np.fft.fftfreq` is NaN/±inf, the tolerance test is False everywhere and
`np.argmax` yields 0. -/
def spectralIndex (t : List ℚ) (n : ℕ) (frequency : ℚ) : ℕ :=
  match meanDiff t with
  | none => 0
  | some d => if d = 0 then 0 else resolveIndex (fftfreq n d) frequency

/-- Line 151 of the source:
`phase_arr = (np.degrees(2 * np.pi * frequency * t_arr) + phase_offset) % 360`,
where `np.degrees(2π f t) = 360 f t` in exact arithmetic. -/
def phaseArrDeg (t_arr : List ℚ) (frequency phase_offset : ℚ) : List ℚ :=
  t_arr.map (fun ti => qmod (360 * frequency * ti + phase_offset) 360)

/-- Line 269 of the source: `phase_arr = (frequency * t_arr) % 1.0`.
The `phase_offset` parameter of `phase_average_field` does not occur here
(or anywhere else in that function). -/
def phaseArrCycle (t_arr : List ℚ) (frequency : ℚ) : List ℚ :=
  t_arr.map (fun ti => qmod (frequency * ti) 1)

/-- Modelled from the spec (§4.1), for comparison with the code's phase
mappers: `phase[i] = normalize(frequency * time[i] * unit_factor +
phase_offset)` where `normalize` reduces modulo the full period. -/
def specPhase (unit_factor period : ℚ) (t_arr : List ℚ)
    (frequency phase_offset : ℚ) : List ℚ :=
  t_arr.map (fun ti => qmod (frequency * ti * unit_factor + phase_offset) period)

/-- Default resolution and validation of `bin_center_offset` (lines 155–162
resp. 273–280): `none` defaults to `(period/2) / nb` (a `ZeroDivisionError`
when `nb = 0`); a nonzero offset must be nonnegative and at most
`period / (nb - 1)`, where evaluating that bound at `nb = 1` is a
`ZeroDivisionError`. -/
def checkedOffset (period : ℚ) (number_of_bins : ℕ) (bin_center_offset : Option ℚ) :
    Except PAError ℚ := do
  let bco ← match bin_center_offset with
    | some c => Except.ok c
    | none =>
        if number_of_bins = 0 then Except.error PAError.zeroDivisionError
        else Except.ok ((period / 2) / (number_of_bins : ℚ))
  if bco ≠ 0 then
    if bco < 0 then throw PAError.valueError
    else if (number_of_bins : ℤ) - 1 = 0 then throw PAError.zeroDivisionError
    else if bco > period / ((number_of_bins : ℚ) - 1) then throw PAError.valueError
    else pure bco
  else pure bco

/-- Bin-edge and midpoint construction (lines 152–153 and 164–170 resp.
270–271 and 282–288), for an already validated offset `c`:
base edges `linspace 0 period (nb+1)` and their midpoints; for `c ≠ 0` shift
edges by `c`, wrap midpoints modulo `period`, prepend edge `0` and force the
last edge to `period`. -/
def buildGrid (period : ℚ) (number_of_bins : ℕ) (c : ℚ) : List ℚ × List ℚ :=
  let bins := linspace 0 period (number_of_bins + 1)
  let bin_midpoints := midpointsOf bins
  if c ≠ 0 then
    (setLast ((0 : ℚ) :: bins.map (· + c)) period,
     bin_midpoints.map (fun m => qmod (m + c) period))
  else (bins, bin_midpoints)

/-- Lines 172–206 of `phase_average_array`: the per-bin groups of `y_arr`.
With `remove_phase_offset` the phases are first shifted by the spectral
estimate `spectralAngleDeg y_arr index + 90`; `np.fft.fft(y_arr)` at line
178 raises ValueError ("Invalid number of FFT data points (0)") when
`y_arr` is zero-length, before the index or angle is used.  Otherwise
`base = "time"` rescales each sample by `deltaT` (a `TypeError` when
`deltaT` is `None`). -/
def binnedArray (spectralAngleDeg : List ℚ → ℕ → ℚ) (t_arr y_arr : List ℚ)
    (frequency : ℚ) (number_of_bins : ℕ) (bins : List ℚ) (phase_arr : List ℚ)
    (remove_phase_offset : Bool) (base : String) (deltaT : Option (List ℚ)) :
    Except PAError (List (List ℚ)) :=
  if remove_phase_offset then
    if y_arr.length = 0 then Except.error PAError.valueError
    else
      let index := spectralIndex t_arr y_arr.length frequency
      let y_arr_phase := spectralAngleDeg y_arr index + 90
      let bin_inds := phase_arr.map (fun p => digitize (qmod (p + y_arr_phase) 360) bins)
      Except.ok (groupsByIndex y_arr bin_inds (number_of_bins + 1))
  else
    let bin_inds := phase_arr.map (fun p => digitize p bins)
    if base = "time" then
      match deltaT with
      | none => Except.error PAError.typeError
      | some dT =>
          let tmp := (y_arr.zip dT).map (fun pr => pr.1 * pr.2)
          Except.ok ((List.range' 1 (number_of_bins + 1)).map (fun i =>
            let dSum := (((dT.zip bin_inds).filter (fun pr => pr.2 == i)).map (·.1)).sum
            (((tmp.zip bin_inds).filter (fun pr => pr.2 == i)).map (·.1)).map
              (fun v => v / dSum)))
    else Except.ok (groupsByIndex y_arr bin_inds (number_of_bins + 1))

/-- Lines 208–253 of `phase_average_array`: wraparound merge, per-bin
statistics (with the `base = "time"` sum override of line 222), sort by
midpoint, optional 0/360 duplicate, and assembly of the result object. -/
def assembleArray (c : ℚ) (include_0_and_360 : Bool) (base : String)
    (binned : List (List ℚ)) (bin_midpoints : List ℚ) : PAResult :=
  let binned2 := if c ≠ 0 then mergeWrap binned else binned
  let var_list := binned2.map (fun g => if 0 < g.length then popVar g else 0)
  let mean_list :=
    if base = "time" then binned2.map (fun g => if 0 < g.length then g.sum else 0)
    else binned2.map (fun g => if 0 < g.length then npmean g else 0)
  let perm := argsort bin_midpoints
  let mids_s := gather bin_midpoints perm 0
  let var_s := gather var_list perm 0
  let mean_s := gather mean_list perm 0
  if include_0_and_360 ∧ (0 : ℚ) ∈ mids_s then
    { bin_midpoints := mids_s ++ [360]
      phase_averaged_mean := mean_s ++ [mean_s.headD 0]
      phase_averaged_var := var_s ++ [var_s.headD 0]
      bin_counts := (binned2 ++ [binned2.headD []]).map (·.length) }
  else
    { bin_midpoints := mids_s
      phase_averaged_mean := mean_s
      phase_averaged_var := var_s
      bin_counts := binned2.map (·.length) }

/-- `phase_average_array` (lines 106–253 of the source), over exact
rationals.  `spectralAngleDeg y i` stands for the transcendental
`np.degrees(np.angle(np.fft.fft(y)[i]))`. -/
def phase_average_array (spectralAngleDeg : List ℚ → ℕ → ℚ)
    (t_arr y_arr : List ℚ) (frequency phase_offset : ℚ) (number_of_bins : ℕ)
    (bin_center_offset : Option ℚ) (include_0_and_360 remove_phase_offset : Bool)
    (base : String) (deltaT : Option (List ℚ)) : Except PAError PAResult := do
  let phase_arr := phaseArrDeg t_arr frequency phase_offset
  let c ← checkedOffset 360 number_of_bins bin_center_offset
  let grid := buildGrid 360 number_of_bins c
  let binned ← binnedArray spectralAngleDeg t_arr y_arr frequency number_of_bins
    grid.1 phase_arr remove_phase_offset base deltaT
  pure (assembleArray c include_0_and_360 base binned grid.2)

/-- `np.mean(group, axis=0)`: componentwise column mean of a rectangular
sample block. -/
def colMean (g : List (List ℚ)) : List ℚ :=
  (List.range (g.headD []).length).map
    (fun j => (g.map (fun row => row.getD j 0)).sum / (g.length : ℚ))

/-- `np.cov(m, rowvar=False)` with default `ddof` (N−1 normalization):
`cov[a][b] = Σ (m[j][a] - μ[a]) * (m[j][b] - μ[b]) / (n - 1)`.
numpy's `cov` ends with a terminal `squeeze()`: for a single-component
input (`k = 1`) the real return value is a 0-dimensional array, not this
`1×1` matrix.  The embedding keeps the unsqueezed `k×k` entries and
instead makes `phase_average_field` raise exactly where the squeezed
shapes make the program raise (lines 330/359); see the guard there. -/
def npcov (m : List (List ℚ)) : List (List ℚ) :=
  let mu := colMean m
  let k := (m.headD []).length
  (List.range k).map (fun a => (List.range k).map (fun b =>
    ((m.map (fun row => (row.getD a 0 - mu.getD a 0) * (row.getD b 0 - mu.getD b 0))).sum)
      / ((m.length : ℚ) - 1)))

/-- Lines 290–299 of `phase_average_field`: digitize the phases into the
grid, group the samples, and apply the split-wraparound merge when a
nonzero (validated) offset `c` is in effect. -/
def fieldBinned (t_arr : List ℚ) (y_arr : List (List ℚ)) (frequency : ℚ)
    (number_of_bins : ℕ) (c : ℚ) : List (List (List ℚ)) :=
  let bin_inds := (phaseArrCycle t_arr frequency).map
    (fun p => digitize p (buildGrid 1 number_of_bins c).1)
  let binned := groupsByIndex y_arr bin_inds (number_of_bins + 1)
  if c ≠ 0 then mergeWrap binned else binned

/-- Lines 301–328 of `phase_average_field`: per-bin mean vectors and
covariance matrices.  Groups of more than one sample are centered and passed
to `np.cov`; any other group takes the "empty bin" branch, which reads
`y_arr[0].shape[0]` (an `IndexError` when `y_arr` is empty) and fills both
mean and covariance with NaN. -/
def reduceField (y_arr : List (List ℚ)) :
    List (List (List ℚ)) → Except PAError (List (List QN) × List (List (List QN)))
  | [] => Except.ok ([], [])
  | g :: rest =>
    if 1 < g.length then
      let group_mean := colMean g
      let centered_group := g.map (fun row => (row.zip group_mean).map (fun p => p.1 - p.2))
      let cov_matrix := npcov centered_group
      match reduceField y_arr rest with
      | Except.error e => Except.error e
      | Except.ok (ms, cs) =>
          Except.ok ((group_mean.map some) :: ms, (cov_matrix.map (fun r => r.map some)) :: cs)
    else
      match y_arr with
      | [] => Except.error PAError.indexError
      | y0 :: _ =>
          let k := y0.length
          match reduceField y_arr rest with
          | Except.error e => Except.error e
          | Except.ok (ms, cs) =>
              Except.ok ((List.replicate k (none : QN)) :: ms,
                (List.replicate k (List.replicate k (none : QN))) :: cs)

/-- Lines 335–364 of `phase_average_field`: sort by midpoint, optional 0/1
duplicate, and assembly of the result object.  The stored
`phase_averaged_std = np.sqrt(np.diagonal(cov, axis1=1, axis2=2))` of line
359 is irrational; its radicand is the diagonal of
`phase_averaged_covariance` kept here, and the shape-dependent AxisError
that line raises on squeezed 0-d covariance entries is modelled by the
guard in `phase_average_field` (this function is only reached with
uniformly `k×k` entries). -/
def assembleField (include_0_and_1 : Bool) (binned2 : List (List (List ℚ)))
    (bin_midpoints : List ℚ) (mean_list : List (List QN))
    (cov_list : List (List (List QN))) : PAFieldResult :=
  let perm := argsort bin_midpoints
  let mids_s := gather bin_midpoints perm 0
  let mean_s := gather mean_list perm []
  let cov_s := gather cov_list perm []
  if include_0_and_1 ∧ (0 : ℚ) ∈ mids_s then
    { bin_midpoints := mids_s ++ [1]
      phase_averaged_mean := mean_s ++ [mean_s.headD []]
      phase_averaged_covariance := cov_s ++ [cov_s.headD []]
      bin_counts := (binned2 ++ [binned2.headD []]).map (·.length) }
  else
    { bin_midpoints := mids_s
      phase_averaged_mean := mean_s
      phase_averaged_covariance := cov_s
      bin_counts := binned2.map (·.length) }

/-- `phase_average_field` (lines 256–364 of the source), over exact
rationals.  Note: the source computes the phase as `(frequency * t) % 1.0`
(line 269) — the `phase_offset` parameter is accepted but never used. -/
def phase_average_field (t_arr : List ℚ) (y_arr : List (List ℚ))
    (frequency phase_offset : ℚ) (number_of_bins : ℕ)
    (bin_center_offset : Option ℚ) (include_0_and_1 : Bool) :
    Except PAError PAFieldResult := do
  let c ← checkedOffset 1 number_of_bins bin_center_offset
  let binned2 := fieldBinned t_arr y_arr frequency number_of_bins c
  let mc ← reduceField y_arr binned2
  -- np.cov's terminal squeeze (see `npcov`) turns the covariance of every
  -- single-component (`k = 1`) group of ≥ 2 samples into a 0-d array.
  -- Stacking those together with the `(1,1)` NaN dummies at line 330 raises
  -- ValueError (inhomogeneous shapes, numpy ≥ 1.24; an object array plus a
  -- later AxisError on older numpy), and even a homogeneous all-0-d stack
  -- makes line 359's `np.diagonal(..., axis1=1, axis2=2)` raise AxisError —
  -- itself a ValueError subclass.  Either way the call raises before
  -- returning whenever `k = 1` and some bin holds more than one sample.
  if (y_arr.headD []).length = 1 ∧ binned2.any (fun g => decide (1 < g.length)) then
    throw PAError.valueError
  else
    pure (assembleField include_0_and_1 binned2 (buildGrid 1 number_of_bins c).2 mc.1 mc.2)

/-- The zero spectral-angle function.  For the constant, positive, real
signals used in concrete theorems below, `np.fft.fft` is real and
non-negative at every index (value `n*c` at index 0 and `0` elsewhere), so
`np.degrees(np.angle(fft[i])) = 0` exactly, whatever index is selected. -/
def zeroAngle : List ℚ → ℕ → ℚ := fun _ _ => 0

/-- A configuration accepted by the source's validation whose shifted edge
list is monotone (offset at most one bin width `period / nb`), the regime in
which `np.digitize` is defined. -/
def ValidConfig (period : ℚ) (number_of_bins : ℕ) (c : ℚ) : Prop :=
  (c = 0 ∧ 1 ≤ number_of_bins) ∨
    (0 < c ∧ c ≤ period / number_of_bins ∧ 2 ≤ number_of_bins)

instance (period : ℚ) (number_of_bins : ℕ) (c : ℚ) :
    Decidable (ValidConfig period number_of_bins c) := by
  unfold ValidConfig
  infer_instance

/-- Total count of binned samples, not counting the trailing wraparound
duplicate when one is present (the duplicate is present exactly when the
last midpoint equals the period). -/
def countSumAdj (period : ℚ) (mids : List ℚ) (counts : List ℕ) : ℕ :=
  if mids.getLastD 0 = period then counts.dropLast.sum else counts.sum

/- ------------------------------------------------------------------ -/
/- Helper lemmas.                                                     -/
/- ------------------------------------------------------------------ -/

theorem qmod_eq_fract (x : ℚ) {p : ℚ} (hp : p ≠ 0) :
    qmod x p = p * Int.fract (x / p) := by
  unfold qmod Int.fract
  field_simp

theorem qmod_nonneg (x : ℚ) {p : ℚ} (hp : 0 < p) : 0 ≤ qmod x p := by
  rw [qmod_eq_fract x hp.ne']
  exact mul_nonneg hp.le (Int.fract_nonneg _)

theorem qmod_lt (x : ℚ) {p : ℚ} (hp : 0 < p) : qmod x p < p := by
  rw [qmod_eq_fract x hp.ne']
  calc p * Int.fract (x / p) < p * 1 :=
        (mul_lt_mul_left hp).mpr (Int.fract_lt_one _)
    _ = p := mul_one p

theorem linspace_length (a b : ℚ) (num : ℕ) : (linspace a b num).length = num := by
  unfold linspace
  rw [List.length_map, List.length_range]

theorem linspace_getD (a b : ℚ) (num i : ℕ) (h : i < num) :
    (linspace a b num).getD i 0 = a + (b - a) * i / ((num : ℚ) - 1) := by
  have hlen : i < ((List.range num).map
      (fun (j : ℕ) => a + (b - a) * (j : ℚ) / ((num : ℚ) - 1))).length := by
    rw [List.length_map, List.length_range]; exact h
  unfold linspace
  rw [List.getD_eq_getElem _ _ hlen, List.getElem_map, List.getElem_range]

theorem zero_mem_linspace (p : ℚ) (nb : ℕ) : (0 : ℚ) ∈ linspace 0 p (nb + 1) := by
  unfold linspace
  refine List.mem_map.mpr ⟨0, List.mem_range.mpr (Nat.succ_pos nb), ?_⟩
  push_cast
  ring

theorem last_mem_linspace (p : ℚ) (nb : ℕ) (h : 1 ≤ nb) :
    p ∈ linspace 0 p (nb + 1) := by
  unfold linspace
  refine List.mem_map.mpr ⟨nb, List.mem_range.mpr (Nat.lt_succ_self nb), ?_⟩
  have hnb : ((nb : ℚ)) ≠ 0 := Nat.cast_ne_zero.mpr (by omega)
  push_cast
  field_simp

theorem digitize_pos {x : ℚ} {bins : List ℚ} (h0 : (0 : ℚ) ∈ bins) (hx : 0 ≤ x) :
    1 ≤ digitize x bins := by
  unfold digitize
  have : 0 < bins.countP (fun b => decide (b ≤ x)) :=
    List.countP_pos_iff.mpr ⟨0, h0, by simpa using hx⟩
  omega

theorem digitize_lt {x p : ℚ} {bins : List ℚ} (hmem : p ∈ bins) (hx : x < p) :
    digitize x bins < bins.length := by
  unfold digitize
  refine Nat.lt_of_le_of_ne (List.countP_le_length _) (fun hEq => ?_)
  have hall := List.countP_eq_length.mp hEq p hmem
  simp only [decide_eq_true_iff] at hall
  exact absurd hx (not_lt.mpr hall)

theorem sum_map_add {α : Type} (l : List α) (f g : α → ℕ) :
    (l.map (fun x => f x + g x)).sum = (l.map f).sum + (l.map g).sum := by
  induction l with
  | nil => simp
  | cons a l ih => simp only [List.map_cons, List.sum_cons, ih]; omega

theorem sum_indicator_of_not_mem (j : ℕ) (r : List ℕ) (hj : j ∉ r) :
    (r.map (fun i => if j = i then 1 else 0)).sum = 0 := by
  induction r with
  | nil => rfl
  | cons i r ih =>
      simp only [List.map_cons, List.sum_cons]
      rw [if_neg (fun h => hj (by rw [h]; exact List.mem_cons_self i r)),
        ih (fun h => hj (List.mem_cons_of_mem _ h))]

theorem sum_indicator_of_mem (j : ℕ) (r : List ℕ) (hnd : r.Nodup) (hj : j ∈ r) :
    (r.map (fun i => if j = i then 1 else 0)).sum = 1 := by
  induction r with
  | nil => cases hj
  | cons i r ih =>
      simp only [List.map_cons, List.sum_cons]
      rcases List.mem_cons.mp hj with h | h
      · subst h
        rw [if_pos rfl, sum_indicator_of_not_mem _ _ (List.nodup_cons.mp hnd).1]
      · have hne : j ≠ i := fun hji => (List.nodup_cons.mp hnd).1 (hji ▸ h)
        rw [if_neg hne, ih (List.nodup_cons.mp hnd).2 h]

/-- Each pair whose index lies in `[1, k]` is counted in exactly one of the
`k` per-index groups, so group sizes add up to the list length. -/
theorem sum_counts_filter {α : Type} (k : ℕ) (l : List (α × ℕ))
    (h : ∀ pr ∈ l, 1 ≤ pr.2 ∧ pr.2 ≤ k) :
    ((List.range' 1 k).map
        (fun i => (l.filter (fun pr => pr.2 == i)).length)).sum = l.length := by
  induction l with
  | nil => simp
  | cons a l ih =>
      have ha := h a (List.mem_cons_self a l)
      have hpoint : ∀ i ∈ List.range' 1 k,
          ((a :: l).filter (fun pr => pr.2 == i)).length
            = (if a.2 = i then 1 else 0) + (l.filter (fun pr => pr.2 == i)).length := by
        intro i _
        rw [List.filter_cons]
        by_cases hai : a.2 = i
        · simp [hai, Nat.add_comm]
        · simp [hai]
      rw [List.map_congr_left hpoint, sum_map_add,
        sum_indicator_of_mem a.2 _ (List.nodup_range' 1 k)
          (List.mem_range'_1.mpr ⟨ha.1, by omega⟩),
        ih (fun pr hpr => h pr (List.mem_cons_of_mem _ hpr))]
      simp [Nat.add_comm]

theorem mergeWrap_aux {α : Type} : ∀ (r : List (List α)) (d g0 : List α), r ≠ [] →
    ((r.dropLast ++ [g0 ++ r.getLastD d]).map (·.length)).sum
      = g0.length + (r.map (·.length)).sum
  | [], _, _, hr => absurd rfl hr
  | [a], d, g0, _ => by
      simp [List.getLastD_cons, List.length_append]
  | a :: b :: r', d, g0, _ => by
      rw [List.dropLast_cons₂, List.getLastD_cons]
      simp only [List.cons_append, List.map_cons, List.sum_cons]
      rw [mergeWrap_aux (b :: r') a g0 (List.cons_ne_nil _ _)]
      simp only [List.map_cons, List.sum_cons]
      omega

/-- The split-wraparound merge moves the first group into the last one, so
the total number of binned samples is unchanged. -/
theorem mergeWrap_map_length_sum {α : Type} (g0 g1 : List α) (b : List (List α)) :
    ((mergeWrap (g0 :: g1 :: b)).map (·.length)).sum
      = ((g0 :: g1 :: b).map (·.length)).sum := by
  unfold mergeWrap
  rw [List.dropLast_cons₂]
  simp only [List.headD_cons, List.getLastD_cons, List.cons_append,
    List.drop_succ_cons, List.drop_zero]
  rw [← List.getLastD_cons g0 g1 b,
    mergeWrap_aux (g1 :: b) g0 g0 (List.cons_ne_nil _ _)]
  simp only [List.map_cons, List.sum_cons]

theorem mergeWrap_length {α : Type} (g0 g1 : List α) (b : List (List α)) :
    (mergeWrap (g0 :: g1 :: b)).length = (g1 :: b).length := by
  unfold mergeWrap
  rw [List.dropLast_cons₂]
  simp only [List.cons_append, List.drop_succ_cons, List.drop_zero,
    List.length_append, List.length_dropLast, List.length_cons]
  simp

/-- Every group of the merged list is either an original group or the
concatenation of the first and last original groups. -/
theorem mergeWrap_mem {α : Type} (b : List (List α)) (g : List α)
    (hg : g ∈ mergeWrap b) :
    g ∈ b ∨ g = b.headD [] ++ b.getLastD [] := by
  unfold mergeWrap at hg
  have := List.mem_of_mem_drop hg
  rcases List.mem_append.mp this with h | h
  · exact Or.inl (List.dropLast_subset _ h)
  · exact Or.inr (List.mem_singleton.mp h)

/-- Fancy indexing by `argsort` equals the value sequence of the sorted
(index, value) pair list. -/
theorem gather_argsort (l : List ℚ) (d : ℚ) :
    gather l (argsort l) d = (l.enum.insertionSort pairLe).map Prod.snd := by
  unfold gather argsort
  rw [List.map_map]
  refine List.map_congr_left ?_
  intro pr hpr
  have hmem : pr ∈ l.enum := (List.perm_insertionSort pairLe l.enum).mem_iff.mp hpr
  obtain ⟨i, v⟩ := pr
  have hv : l[i]? = some v := List.mk_mem_enum_iff_getElem?.mp hmem
  simp [Function.comp, List.getD_eq_getElem?_getD, hv]

theorem gather_argsort_perm (l : List ℚ) (d : ℚ) : (gather l (argsort l) d).Perm l := by
  rw [gather_argsort]
  have h := (List.perm_insertionSort pairLe l.enum).map Prod.snd
  rwa [List.enum_map_snd] at h

theorem gather_argsort_sorted (l : List ℚ) (d : ℚ) :
    (gather l (argsort l) d).Pairwise (· ≤ ·) := by
  rw [gather_argsort]
  refine List.Pairwise.map _ ?_ (List.sorted_insertionSort pairLe l.enum)
  intro a b hab
  rcases hab with h | ⟨h, _⟩
  · exact le_of_lt h
  · exact le_of_eq h

theorem pairwise_lt_of_le_nodup {l : List ℚ}
    (h1 : l.Pairwise (· ≤ ·)) (h2 : l.Nodup) : l.Pairwise (· < ·) :=
  (h1.and h2).imp (fun h => lt_of_le_of_ne h.1 h.2)

/-- A `≤`-sorted list of nonnegative values containing `0` starts with `0`. -/
theorem sorted_headD_eq_zero {l : List ℚ} (hs : l.Pairwise (· ≤ ·))
    (h0 : (0 : ℚ) ∈ l) (hnn : ∀ x ∈ l, 0 ≤ x) : l.headD 0 = 0 := by
  cases l with
  | nil => cases h0
  | cons a t =>
      have ha : 0 ≤ a := hnn a (List.mem_cons_self a t)
      rcases List.mem_cons.mp h0 with h | h
      · simpa using h.symm
      · have := (List.pairwise_cons.mp hs).1 0 h
        simpa using le_antisymm this ha

theorem midpointsOf_length (bins : List ℚ) :
    (midpointsOf bins).length = bins.length - 1 := by
  unfold midpointsOf
  rw [List.length_map, List.length_zip, List.length_tail]
  omega

theorem midpointsOf_getD (bins : List ℚ) (i : ℕ) (h : i + 1 < bins.length) :
    (midpointsOf bins).getD i 0 = (bins.getD (i + 1) 0 + bins.getD i 0) * (1/2) := by
  have hzip : i < (bins.zip bins.tail).length := by
    rw [List.length_zip, List.length_tail]; omega
  have hlen : i < (midpointsOf bins).length := by rw [midpointsOf_length]; omega
  unfold midpointsOf at hlen ⊢
  rw [List.getD_eq_getElem _ _ hlen, List.getElem_map, List.getElem_zip,
    List.getElem_tail, List.getD_eq_getElem _ _ (by omega),
    List.getD_eq_getElem _ _ (by omega)]

/-- Closed form of the base midpoints: the `i`-th midpoint of the base grid
over `[0, p]` with `nb` bins is `p * (2i+1) / (2nb)`. -/
theorem mids0_getD (p : ℚ) (nb : ℕ) (hnb : 1 ≤ nb) (i : ℕ) (h : i < nb) :
    (midpointsOf (linspace 0 p (nb + 1))).getD i 0 = p * (2 * i + 1) / (2 * nb) := by
  rw [midpointsOf_getD _ _ (by rw [linspace_length]; omega),
    linspace_getD _ _ _ _ (by omega), linspace_getD _ _ _ _ (by omega)]
  have hnbq : ((nb : ℚ)) ≠ 0 := Nat.cast_ne_zero.mpr (by omega)
  push_cast
  field_simp
  ring

theorem mids0_length (p : ℚ) (nb : ℕ) :
    (midpointsOf (linspace 0 p (nb + 1))).length = nb := by
  rw [midpointsOf_length, linspace_length]
  omega

theorem mids0_mem_bounds (p : ℚ) (hp : 0 < p) (nb : ℕ) (hnb : 1 ≤ nb) :
    ∀ m ∈ midpointsOf (linspace 0 p (nb + 1)), 0 < m ∧ m < p := by
  intro m hm
  obtain ⟨i, hi, hgm⟩ := List.mem_iff_getElem.mp hm
  rw [mids0_length] at hi
  have hget : m = p * (2 * i + 1) / (2 * nb) := by
    rw [← mids0_getD p nb hnb i hi, List.getD_eq_getElem _ _ (by rw [mids0_length]; exact hi)]
    exact hgm.symm
  have hpos : (0 : ℚ) < 2 * nb := by positivity
  constructor
  · rw [hget]
    positivity
  · rw [hget, div_lt_iff hpos]
    have h1 : (2 * (i : ℚ) + 1) < 2 * nb := by
      have : (i : ℚ) + 1 ≤ nb := by exact_mod_cast Nat.succ_le_of_lt hi
      linarith
    nlinarith

theorem buildGrid_mids_length (p : ℚ) (nb : ℕ) (c : ℚ) :
    ((buildGrid p nb c).2).length = nb := by
  unfold buildGrid
  by_cases hc : c = 0
  · simp [hc, mids0_length]
  · simp [hc, List.length_map, mids0_length]

/-- Every midpoint of a validly configured grid is `≥ 0` and `< p`, and with
a zero offset even `> 0`. -/
theorem buildGrid_mids_bounds (p : ℚ) (hp : 0 < p) (nb : ℕ) (hnb : 1 ≤ nb) (c : ℚ) :
    ∀ m ∈ (buildGrid p nb c).2, 0 ≤ m ∧ m < p := by
  unfold buildGrid
  by_cases hc : c = 0
  · simp only [hc, ne_eq, not_true_eq_false, if_neg, ite_false, not_false_eq_true]
    intro m hm
    have := mids0_mem_bounds p hp nb hnb m (by simpa using hm)
    exact ⟨this.1.le, this.2⟩
  · simp only [hc, ne_eq, not_false_eq_true, if_pos, ite_true]
    intro m hm
    simp only [List.mem_map] at hm
    obtain ⟨m0, _, hm0⟩ := hm
    exact hm0 ▸ ⟨qmod_nonneg _ hp, qmod_lt _ hp⟩

theorem buildGrid_mids_pos_of_no_offset (p : ℚ) (hp : 0 < p) (nb : ℕ)
    (hnb : 1 ≤ nb) : ∀ m ∈ (buildGrid p nb 0).2, 0 < m := by
  unfold buildGrid
  simp only [ne_eq, not_true_eq_false, ite_false]
  intro m hm
  exact (mids0_mem_bounds p hp nb hnb m (by simpa using hm)).1

theorem zero_mem_buildGrid_bins (p : ℚ) (nb : ℕ) (hnb : 1 ≤ nb) (c : ℚ) :
    (0 : ℚ) ∈ (buildGrid p nb c).1 := by
  unfold buildGrid
  by_cases hc : c = 0
  · simp only [hc, ne_eq, not_true_eq_false, ite_false]
    exact zero_mem_linspace p nb
  · simp only [hc, ne_eq, not_false_eq_true, ite_true]
    unfold setLast
    refine List.mem_append.mpr (Or.inl ?_)
    have hlen : 1 < ((0 : ℚ) :: (linspace 0 p (nb + 1)).map (· + c)).length := by
      rw [List.length_cons, List.length_map, linspace_length]
      omega
    cases hmap : (linspace 0 p (nb + 1)).map (· + c) with
    | nil =>
        rw [hmap] at hlen
        simp at hlen
    | cons a t =>
        rw [List.dropLast_cons₂]
        exact List.mem_cons_self _ _

theorem last_mem_buildGrid_bins (p : ℚ) (nb : ℕ) (hnb : 1 ≤ nb) (c : ℚ) :
    p ∈ (buildGrid p nb c).1 := by
  unfold buildGrid
  by_cases hc : c = 0
  · simp only [hc, ne_eq, not_true_eq_false, ite_false]
    exact last_mem_linspace p nb hnb
  · simp only [hc, ne_eq, not_false_eq_true, ite_true]
    unfold setLast
    exact List.mem_append.mpr (Or.inr (List.mem_singleton.mpr rfl))

theorem buildGrid_bins_length (p : ℚ) (nb : ℕ) (c : ℚ) :
    ((buildGrid p nb c).1).length = if c ≠ 0 then nb + 2 else nb + 1 := by
  unfold buildGrid
  by_cases hc : c = 0
  · simp [hc, linspace_length]
  · simp only [hc, ne_eq, not_false_eq_true, ite_true]
    unfold setLast
    rw [List.length_append, List.length_dropLast, List.length_cons,
      List.length_map, linspace_length]
    simp

theorem buildGrid_mids_getD (p : ℚ) (nb : ℕ) (hnb : 1 ≤ nb) (c : ℚ) (i : ℕ)
    (h : i < nb) :
    ((buildGrid p nb c).2).getD i 0
      = if c ≠ 0 then qmod (p * (2 * i + 1) / (2 * nb) + c) p
        else p * (2 * i + 1) / (2 * nb) := by
  unfold buildGrid
  by_cases hc : c = 0
  · simp only [hc, ne_eq, not_true_eq_false, ite_false]
    exact mids0_getD p nb hnb i h
  · simp only [hc, ne_eq, not_false_eq_true, ite_true]
    have hmid := mids0_getD p nb hnb i h
    rw [List.getD_eq_getElem _ _ (by rw [mids0_length]; exact h)] at hmid
    rw [List.getD_eq_getElem _ _
        (by rw [List.length_map, mids0_length]; exact h),
      List.getElem_map, hmid]

/-- Distinct integers `i < j < nb` yield distinct wrapped midpoints: their
difference `p (j-i)/nb` is strictly between `0` and `p`, hence not an
integer multiple of the period. -/
theorem qmod_midpoint_ne (p : ℚ) (hp : 0 < p) (nb : ℕ) (hnb : 1 ≤ nb) (c : ℚ)
    (i j : ℕ) (hij : i < j) (hj : j < nb) :
    qmod (p * (2 * i + 1) / (2 * nb) + c) p
      ≠ qmod (p * (2 * j + 1) / (2 * nb) + c) p := by
  intro heq
  set A := p * (2 * (i : ℚ) + 1) / (2 * nb) + c with hA
  set B := p * (2 * (j : ℚ) + 1) / (2 * nb) + c with hB
  have hnbq : (0 : ℚ) < (nb : ℚ) := by exact_mod_cast Nat.lt_of_lt_of_le Nat.zero_lt_one hnb
  have hBA : B - A = p * ((j : ℚ) - i) / nb := by
    rw [hA, hB]
    field_simp
    ring
  unfold qmod at heq
  have hm : B - A = p * ((⌊B / p⌋ : ℚ) - (⌊A / p⌋ : ℚ)) := by linarith
  have hcast : ((j : ℚ) - i) = (nb : ℚ) * ((⌊B / p⌋ : ℚ) - (⌊A / p⌋ : ℚ)) := by
    have hp' : p ≠ 0 := hp.ne'
    rw [hBA] at hm
    field_simp at hm
    nlinarith [hm]
  have h1 : (0 : ℚ) < (j : ℚ) - i := by
    have : (i : ℚ) < j := by exact_mod_cast hij
    linarith
  have h2 : (j : ℚ) - i < nb := by
    have hjq : (j : ℚ) < nb := by exact_mod_cast hj
    have hiq : (0 : ℚ) ≤ (i : ℚ) := Nat.cast_nonneg i
    linarith
  set m : ℤ := ⌊B / p⌋ - ⌊A / p⌋ with hmdef
  have hmq : ((j : ℚ) - i) = (nb : ℚ) * (m : ℚ) := by
    rw [hmdef]
    push_cast
    exact hcast
  have hm1 : (0 : ℚ) < (m : ℚ) := by
    by_contra hcon
    push_neg at hcon
    nlinarith
  have hm2 : (m : ℚ) < 1 := by
    by_contra hcon
    push_neg at hcon
    nlinarith
  have hm1' : 0 < m := by exact_mod_cast hm1
  have hm2' : m < 1 := by exact_mod_cast hm2
  omega

theorem buildGrid_mids_nodup (p : ℚ) (hp : 0 < p) (nb : ℕ) (hnb : 1 ≤ nb)
    (c : ℚ) : ((buildGrid p nb c).2).Nodup := by
  refine List.pairwise_iff_getElem.mpr ?_
  intro i j hi hj hij
  rw [buildGrid_mids_length] at hi hj
  have hgi := buildGrid_mids_getD p nb hnb c i hi
  have hgj := buildGrid_mids_getD p nb hnb c j hj
  rw [List.getD_eq_getElem _ _ (by rw [buildGrid_mids_length]; exact hi)] at hgi
  rw [List.getD_eq_getElem _ _ (by rw [buildGrid_mids_length]; exact hj)] at hgj
  rw [hgi, hgj]
  by_cases hc : c = 0
  · simp only [hc, ne_eq, not_true_eq_false, ite_false]
    have hnbq : (0 : ℚ) < 2 * (nb : ℚ) := by
      have : (0 : ℚ) < (nb : ℚ) := by exact_mod_cast Nat.lt_of_lt_of_le Nat.zero_lt_one hnb
      linarith
    have hlt : p * (2 * (i : ℚ) + 1) / (2 * nb) < p * (2 * (j : ℚ) + 1) / (2 * nb) := by
      rw [div_lt_div_iff_of_pos_right hnbq]
      have : (i : ℚ) < j := by exact_mod_cast hij
      nlinarith
    exact ne_of_lt hlt
  · simp only [hc, ne_eq, not_false_eq_true, ite_true]
    exact qmod_midpoint_ne p hp nb hnb c i j hij hj

theorem ok_bind {ε α β : Type} (a : α) (f : α → Except ε β) :
    (Except.ok a : Except ε α) >>= f = f a := rfl

theorem error_bind {ε α β : Type} (e : ε) (f : α → Except ε β) :
    (Except.error e : Except ε α) >>= f = Except.error e := rfl

theorem pure_eq_ok {ε α : Type} (a : α) : (pure a : Except ε α) = Except.ok a := rfl

theorem throw_eq_error {ε α : Type} (e : ε) :
    (throw e : Except ε α) = Except.error e := rfl

theorem checkedOffset_ok {p : ℚ} (hp : 0 < p) {nb : ℕ} {c : ℚ}
    (h : ValidConfig p nb c) : checkedOffset p nb (some c) = Except.ok c := by
  rcases h with ⟨hc0, _⟩ | ⟨hpos, hle, hnb⟩
  · simp [checkedOffset, hc0, ok_bind, pure_eq_ok]
  · have hne : c ≠ 0 := ne_of_gt hpos
    have h1 : ¬ c < 0 := not_lt.mpr hpos.le
    have h2 : ¬ ((nb : ℤ) - 1 = 0) := by
      have : (2 : ℤ) ≤ (nb : ℤ) := by exact_mod_cast hnb
      omega
    have hnb1 : (0 : ℚ) < (nb : ℚ) - 1 := by
      have : (2 : ℚ) ≤ (nb : ℚ) := by exact_mod_cast hnb
      linarith
    have hmono : p / (nb : ℚ) ≤ p / ((nb : ℚ) - 1) :=
      div_le_div_of_nonneg_left hp.le hnb1 (by linarith)
    have h3 : ¬ c > p / ((nb : ℚ) - 1) := not_lt.mpr (le_trans hle hmono)
    simp [checkedOffset, hne, h1, h2, h3, ok_bind, pure_eq_ok]

theorem getLastD_mem {α : Type} {l : List α} (d : α) (h : l ≠ []) :
    l.getLastD d ∈ l := by
  rw [List.getLastD_eq_getLast?, List.getLast?_eq_getLast l h]
  exact List.getLast_mem h

theorem getLastD_append_singleton {α : Type} (l : List α) (x d : α) :
    (l ++ [x]).getLastD d = x := by
  rw [List.getLastD_eq_getLast?, List.getLast?_concat]
  rfl

theorem headD_append_of_ne_nil {α : Type} {l : List α} (t : List α) (d : α)
    (h : l ≠ []) : (l ++ t).headD d = l.headD d := by
  cases l with
  | nil => cases h rfl
  | cons a l' => rfl

theorem digitize_index_bounds (p : ℚ) (hp : 0 < p) (nb : ℕ) (hnb : 1 ≤ nb)
    (c x : ℚ) (hx0 : 0 ≤ x) (hxp : x < p) :
    1 ≤ digitize x (buildGrid p nb c).1 ∧ digitize x (buildGrid p nb c).1 ≤ nb + 1 := by
  refine ⟨digitize_pos (zero_mem_buildGrid_bins p nb hnb c) hx0, ?_⟩
  have h1 := digitize_lt (last_mem_buildGrid_bins p nb hnb c) hxp
  have h2 := buildGrid_bins_length p nb c
  by_cases hc : c = 0
  · subst hc
    simp at h2
    omega
  · simp [hc] at h2
    omega

theorem groupsByIndex_length {α : Type} (vals : List α) (inds : List ℕ) (k : ℕ) :
    (groupsByIndex vals inds k).length = k := by
  unfold groupsByIndex
  rw [List.length_map, List.length_range']

theorem groupsByIndex_sum {α : Type} (vals : List α) (inds : List ℕ) (k : ℕ)
    (hlen : inds.length = vals.length)
    (hb : ∀ i ∈ inds, 1 ≤ i ∧ i ≤ k) :
    ((groupsByIndex vals inds k).map (·.length)).sum = vals.length := by
  unfold groupsByIndex
  rw [List.map_map]
  have hpoint : ∀ i ∈ List.range' 1 k,
      ((·.length) ∘ fun i => ((vals.zip inds).filter (fun pr => pr.2 == i)).map (·.1)) i
        = ((vals.zip inds).filter (fun pr => pr.2 == i)).length := by
    intro i _
    simp [Function.comp, List.length_map]
  rw [List.map_congr_left hpoint,
    sum_counts_filter k _ (fun pr hpr => hb pr.2 (List.of_mem_zip hpr).2),
    List.length_zip, hlen]
  simp

/-- An `ok` run of `phase_average_array` factors through the binning stage
and the result assembler. -/
theorem array_ok_struct (oracle : List ℚ → ℕ → ℚ) (t y : List ℚ) (f po : ℚ)
    (nb : ℕ) (c : ℚ) (inc rm : Bool) (base : String) (dT : Option (List ℚ))
    (r : PAResult)
    (hco : checkedOffset 360 nb (some c) = Except.ok c)
    (hpa : phase_average_array oracle t y f po nb (some c) inc rm base dT
      = Except.ok r) :
    ∃ binned,
      binnedArray oracle t y f nb (buildGrid 360 nb c).1 (phaseArrDeg t f po)
          rm base dT = Except.ok binned
        ∧ r = assembleArray c inc base binned (buildGrid 360 nb c).2 := by
  simp only [phase_average_array] at hpa
  rw [hco, ok_bind] at hpa
  cases hbn : binnedArray oracle t y f nb (buildGrid 360 nb c).1
      (phaseArrDeg t f po) rm base dT with
  | error e =>
      rw [hbn, error_bind] at hpa
      cases hpa
  | ok binned =>
      rw [hbn, ok_bind, pure_eq_ok] at hpa
      exact ⟨binned, rfl, (Except.ok.inj hpa).symm⟩

/-- An `ok` run of `phase_average_field` factors through the binning stage,
the reduction loop and the result assembler. -/
theorem field_ok_struct (t : List ℚ) (y : List (List ℚ)) (f po : ℚ)
    (nb : ℕ) (c : ℚ) (inc : Bool) (r : PAFieldResult)
    (hco : checkedOffset 1 nb (some c) = Except.ok c)
    (hpa : phase_average_field t y f po nb (some c) inc = Except.ok r) :
    ∃ mc, reduceField y (fieldBinned t y f nb c) = Except.ok mc
      ∧ r = assembleField inc (fieldBinned t y f nb c) (buildGrid 1 nb c).2
          mc.1 mc.2 := by
  simp only [phase_average_field] at hpa
  rw [hco, ok_bind] at hpa
  cases hrf : reduceField y (fieldBinned t y f nb c) with
  | error e =>
      rw [hrf, error_bind] at hpa
      cases hpa
  | ok mc =>
      rw [hrf, ok_bind] at hpa
      split at hpa
      · rw [throw_eq_error] at hpa
        cases hpa
      · rw [pure_eq_ok] at hpa
        exact ⟨mc, rfl, (Except.ok.inj hpa).symm⟩

/-- Any group list produced by an `ok` run of the array binning stage has
`nb + 1` groups whose sizes add up to the number of samples. -/
theorem binnedArray_ok_props (oracle : List ℚ → ℕ → ℚ) (t y : List ℚ)
    (f : ℚ) (nb : ℕ) (hnb : 1 ≤ nb) (c : ℚ) (phase : List ℚ) (rm : Bool)
    (base : String) (dT : Option (List ℚ)) (binned : List (List ℚ))
    (hplen : phase.length = y.length)
    (hpb : ∀ x ∈ phase, 0 ≤ x ∧ x < 360)
    (hdT : ∀ l, dT = some l → l.length = y.length)
    (hbn : binnedArray oracle t y f nb (buildGrid 360 nb c).1 phase rm base dT
      = Except.ok binned) :
    binned.length = nb + 1 ∧ (binned.map (·.length)).sum = y.length := by
  have h360 : (0 : ℚ) < 360 := by norm_num
  have hbounds : ∀ i ∈ phase.map
      (fun p => digitize p (buildGrid 360 nb c).1), 1 ≤ i ∧ i ≤ nb + 1 := by
    intro i hi
    obtain ⟨x, hxm, hx⟩ := List.mem_map.mp hi
    subst hx
    exact digitize_index_bounds 360 h360 nb hnb c _ (hpb x hxm).1 (hpb x hxm).2
  have hremove : ∀ sh : ℚ,
      binned = groupsByIndex y (phase.map
        (fun p => digitize (qmod (p + sh) 360) (buildGrid 360 nb c).1)) (nb + 1) →
      binned.length = nb + 1 ∧ (binned.map (·.length)).sum = y.length := by
    intro sh hb
    subst hb
    refine ⟨groupsByIndex_length _ _ _,
      groupsByIndex_sum _ _ _ (by rw [List.length_map, hplen]) ?_⟩
    intro i hi
    obtain ⟨x, _, hx⟩ := List.mem_map.mp hi
    subst hx
    exact digitize_index_bounds 360 h360 nb hnb c _ (qmod_nonneg _ h360)
      (qmod_lt _ h360)
  have hiter : binned = groupsByIndex y (phase.map
        (fun p => digitize p (buildGrid 360 nb c).1)) (nb + 1) →
      binned.length = nb + 1 ∧ (binned.map (·.length)).sum = y.length := by
    intro hb
    subst hb
    exact ⟨groupsByIndex_length _ _ _,
      groupsByIndex_sum _ _ _ (by rw [List.length_map, hplen]) hbounds⟩
  cases dT with
  | none =>
      simp only [binnedArray] at hbn
      split at hbn
      · split at hbn
        · cases hbn
        · exact hremove _ (Except.ok.inj hbn).symm
      · split at hbn
        · cases hbn
        · exact hiter (Except.ok.inj hbn).symm
  | some dTl =>
      have hdl : dTl.length = y.length := hdT dTl rfl
      simp only [binnedArray] at hbn
      split at hbn
      · split at hbn
        · cases hbn
        · exact hremove _ (Except.ok.inj hbn).symm
      · split at hbn
        · -- base = "time" with a supplied deltaT
          have hb := (Except.ok.inj hbn).symm
          subst hb
          constructor
          · rw [List.length_map, List.length_range']
          · have htmp : ((y.zip dTl).map (fun pr => pr.1 * pr.2)).length
                = y.length := by
              rw [List.length_map, List.length_zip, hdl]
              simp
            rw [List.map_map]
            have hpoint : ∀ i ∈ List.range' 1 (nb + 1),
                ((·.length) ∘ fun i =>
                    (((((y.zip dTl).map (fun pr => pr.1 * pr.2)).zip
                        (phase.map (fun p => digitize p (buildGrid 360 nb c).1))).filter
                        (fun pr => pr.2 == i)).map (·.1)).map
                      (fun v => v / ((((dTl.zip (phase.map (fun p =>
                        digitize p (buildGrid 360 nb c).1))).filter
                        (fun pr => pr.2 == i)).map (·.1)).sum))) i
                  = (((((y.zip dTl).map (fun pr => pr.1 * pr.2)).zip
                      (phase.map (fun p => digitize p (buildGrid 360 nb c).1))).filter
                      (fun pr => pr.2 == i)).length) := by
              intro i _
              simp [Function.comp, List.length_map]
            rw [List.map_congr_left hpoint,
              sum_counts_filter (nb + 1) _
                (fun pr hpr => hbounds pr.2 (List.of_mem_zip hpr).2),
              List.length_zip, htmp, List.length_map, hplen]
            simp
        · exact hiter (Except.ok.inj hbn).symm

/-- The assembled array result counts all samples exactly once, apart from
the optional trailing wraparound duplicate (detected by the last midpoint
equalling the period). -/
theorem assembleArray_counts (nb : ℕ) (hnb : 1 ≤ nb) (c : ℚ) (inc : Bool)
    (base : String) (binned : List (List ℚ)) (mids : List ℚ)
    (hblen : binned.length = nb + 1)
    (hcnb : c ≠ 0 → 2 ≤ nb)
    (hmlen : mids.length = nb)
    (hmb : ∀ m ∈ mids, m < 360) :
    countSumAdj 360 (assembleArray c inc base binned mids).bin_midpoints
        (assembleArray c inc base binned mids).bin_counts
      = (binned.map (·.length)).sum := by
  have hsum2 : ((if c ≠ 0 then mergeWrap binned else binned).map (·.length)).sum
      = (binned.map (·.length)).sum := by
    by_cases hc : c = 0
    · simp [hc]
    · have h2 := hcnb hc
      rcases binned with _ | ⟨g0, _ | ⟨g1, b⟩⟩
      · simp at hblen
      · simp at hblen
        omega
      · simp only [hc, ne_eq, not_false_eq_true, ite_true]
        exact mergeWrap_map_length_sum g0 g1 b
  have hperm := gather_argsort_perm mids 0
  have hlen_s : (gather mids (argsort mids) 0).length = nb := by
    rw [hperm.length_eq, hmlen]
  have hne_s : gather mids (argsort mids) 0 ≠ [] := by
    intro h
    rw [h] at hlen_s
    simp at hlen_s
    omega
  simp only [assembleArray]
  split
  · simp only [countSumAdj]
    rw [getLastD_append_singleton, if_pos rfl]
    simp only [List.map_append, List.map_cons, List.map_nil, List.dropLast_concat]
    exact hsum2
  · simp only [countSumAdj]
    have hlt : (gather mids (argsort mids) 0).getLastD 0 < 360 :=
      hmb _ (hperm.mem_iff.mp (getLastD_mem 0 hne_s))
    rw [if_neg (ne_of_lt hlt)]
    exact hsum2

/-- Field-variant analog of `assembleArray_counts`. -/
theorem assembleField_counts (nb : ℕ) (hnb : 1 ≤ nb) (inc : Bool)
    (binned2 : List (List (List ℚ))) (mids : List ℚ)
    (ml : List (List QN)) (cl : List (List (List QN)))
    (hmlen : mids.length = nb)
    (hmb : ∀ m ∈ mids, m < 1) :
    countSumAdj 1 (assembleField inc binned2 mids ml cl).bin_midpoints
        (assembleField inc binned2 mids ml cl).bin_counts
      = (binned2.map (·.length)).sum := by
  have hperm := gather_argsort_perm mids 0
  have hlen_s : (gather mids (argsort mids) 0).length = nb := by
    rw [hperm.length_eq, hmlen]
  have hne_s : gather mids (argsort mids) 0 ≠ [] := by
    intro h
    rw [h] at hlen_s
    simp at hlen_s
    omega
  simp only [assembleField]
  split
  · simp only [countSumAdj]
    rw [getLastD_append_singleton, if_pos rfl]
    simp only [List.map_append, List.map_cons, List.map_nil, List.dropLast_concat]
  · simp only [countSumAdj]
    have hlt : (gather mids (argsort mids) 0).getLastD 0 < 1 :=
      hmb _ (hperm.mem_iff.mp (getLastD_mem 0 hne_s))
    rw [if_neg (ne_of_lt hlt)]

/-- The merged field groups have sizes adding up to the number of samples. -/
theorem fieldBinned_sum (t : List ℚ) (y : List (List ℚ)) (f : ℚ) (nb : ℕ)
    (c : ℚ) (hnb : 1 ≤ nb) (hcnb : c ≠ 0 → 2 ≤ nb)
    (hlen : t.length = y.length) :
    ((fieldBinned t y f nb c).map (·.length)).sum = y.length := by
  have h1 : (0 : ℚ) < 1 := by norm_num
  have hbase : ((groupsByIndex y ((phaseArrCycle t f).map
      (fun p => digitize p (buildGrid 1 nb c).1)) (nb + 1)).map (·.length)).sum
        = y.length := by
    refine groupsByIndex_sum _ _ _
      (by rw [List.length_map]; unfold phaseArrCycle; rw [List.length_map, hlen]) ?_
    intro i hi
    obtain ⟨x, hxm, hx⟩ := List.mem_map.mp hi
    subst hx
    obtain ⟨ti, _, hti⟩ := List.mem_map.mp hxm
    subst hti
    exact digitize_index_bounds 1 h1 nb hnb c _ (qmod_nonneg _ h1) (qmod_lt _ h1)
  unfold fieldBinned
  by_cases hc : c = 0
  · simpa [hc] using hbase
  · have h2 := hcnb hc
    have hglen : (groupsByIndex y ((phaseArrCycle t f).map
        (fun p => digitize p (buildGrid 1 nb c).1)) (nb + 1)).length = nb + 1 :=
      groupsByIndex_length _ _ _
    simp only [hc, ne_eq, not_false_eq_true, ite_true]
    rcases hg : groupsByIndex y ((phaseArrCycle t f).map
        (fun p => digitize p (buildGrid 1 nb c).1)) (nb + 1) with _ | ⟨g0, _ | ⟨g1, b⟩⟩
    · rw [hg] at hglen
      simp at hglen
    · rw [hg] at hglen
      simp at hglen
      omega
    · rw [hg] at hbase
      rw [mergeWrap_map_length_sum g0 g1 b, hbase]

/- ------------------------------------------------------------------ -/
/- Claim theorems.                                                    -/
/- ------------------------------------------------------------------ -/

/-- C1 (amended): for valid configurations of either variant, the per-bin
sample counts sum to `N` whenever no wraparound duplicate entry was appended
(in particular always when the duplicate flag is off); when the duplicate
was appended (the last midpoint equals the period), the counts with the
duplicate entry removed sum to `N`.  As stated the claim is false: the
appended duplicate also duplicates its group's count, so with the flag on
the raw sum exceeds `N` (see the counterexample). -/
theorem c1_sum_counts_amended :
    (∀ (oracle : List ℚ → ℕ → ℚ) (t y : List ℚ) (f po : ℚ) (nb : ℕ) (c : ℚ)
        (inc rm : Bool) (base : String) (dT : Option (List ℚ)) (r : PAResult),
      t.length = y.length →
      (∀ l, dT = some l → l.length = y.length) →
      ValidConfig 360 nb c →
      phase_average_array oracle t y f po nb (some c) inc rm base dT = Except.ok r →
      countSumAdj 360 r.bin_midpoints r.bin_counts = y.length)
    ∧ (∀ (t : List ℚ) (y : List (List ℚ)) (f po : ℚ) (nb : ℕ) (c : ℚ)
        (inc : Bool) (r : PAFieldResult),
      t.length = y.length →
      ValidConfig 1 nb c →
      phase_average_field t y f po nb (some c) inc = Except.ok r →
      countSumAdj 1 r.bin_midpoints r.bin_counts = y.length) := by
  constructor
  · intro oracle t y f po nb c inc rm base dT r hlen hdT hcfg hpa
    have hnb : 1 ≤ nb := by
      rcases hcfg with ⟨_, h⟩ | ⟨_, _, h⟩
      · exact h
      · omega
    have hcnb : c ≠ 0 → 2 ≤ nb := by
      intro hc
      rcases hcfg with ⟨h0, _⟩ | ⟨_, _, h⟩
      · exact absurd h0 hc
      · exact h
    have h360 : (0 : ℚ) < 360 := by norm_num
    obtain ⟨binned, hbn, hr⟩ :=
      array_ok_struct oracle t y f po nb c inc rm base dT r
        (checkedOffset_ok h360 hcfg) hpa
    have hprops := binnedArray_ok_props oracle t y f nb hnb c
      (phaseArrDeg t f po) rm base dT binned
      (by unfold phaseArrDeg; rw [List.length_map, hlen])
      (by
        intro x hx
        obtain ⟨ti, _, hti⟩ := List.mem_map.mp hx
        subst hti
        exact ⟨qmod_nonneg _ h360, qmod_lt _ h360⟩)
      hdT hbn
    rw [hr, assembleArray_counts nb hnb c inc base binned _ hprops.1 hcnb
        (buildGrid_mids_length 360 nb c)
        (fun m hm => (buildGrid_mids_bounds 360 h360 nb hnb c m hm).2),
      hprops.2]
  · intro t y f po nb c inc r hlen hcfg hpa
    have hnb : 1 ≤ nb := by
      rcases hcfg with ⟨_, h⟩ | ⟨_, _, h⟩
      · exact h
      · omega
    have hcnb : c ≠ 0 → 2 ≤ nb := by
      intro hc
      rcases hcfg with ⟨h0, _⟩ | ⟨_, _, h⟩
      · exact absurd h0 hc
      · exact h
    have h1 : (0 : ℚ) < 1 := by norm_num
    obtain ⟨mc, hrf, hr⟩ :=
      field_ok_struct t y f po nb c inc r (checkedOffset_ok h1 hcfg) hpa
    rw [hr, assembleField_counts nb hnb inc _ _ _ _
        (buildGrid_mids_length 1 nb c)
        (fun m hm => (buildGrid_mids_bounds 1 h1 nb hnb c m hm).2),
      fieldBinned_sum t y f nb c hnb hcnb hlen]

/-- Concrete array result used by the C1 witness. -/
def c1ResA : PAResult :=
  { bin_midpoints := [45, 135, 225, 315]
    phase_averaged_mean := [1, 2, 0, 0]
    phase_averaged_var := [0, 0, 0, 0]
    bin_counts := [1, 1, 0, 0, 0] }

/-- Concrete field result used by the C1 witness. -/
def c1ResF : PAFieldResult :=
  { bin_midpoints := [1/4, 3/4]
    phase_averaged_mean := [[none], [none]]
    phase_averaged_covariance := [[[none]], [[none]]]
    bin_counts := [1, 1, 0] }

/-- Witness for C1 (amended): both engine variants evaluated at concrete
two-sample inputs satisfy the count-partition property. -/
theorem c1_sum_counts_amended_witness :
    (phase_average_array zeroAngle [0, 1/4] [1, 2] 1 0 4 (some 0) true false
        "iter" none = Except.ok c1ResA)
      ∧ ValidConfig 360 4 0
      ∧ countSumAdj 360 c1ResA.bin_midpoints c1ResA.bin_counts = 2
      ∧ (phase_average_field [0, 3/5] [[1], [2]] 1 0 2 (some 0) true
        = Except.ok c1ResF)
      ∧ ValidConfig 1 2 0
      ∧ countSumAdj 1 c1ResF.bin_midpoints c1ResF.bin_counts = 2 := by
  refine ⟨by with_unfolding_all decide, by with_unfolding_all decide, ?_,
    by with_unfolding_all decide, by with_unfolding_all decide, ?_⟩
  · exact c1_sum_counts_amended.1 zeroAngle [0, 1/4] [1, 2] 1 0 4 0 true false
      "iter" none c1ResA (by with_unfolding_all decide) (fun l h => by cases h)
      (by with_unfolding_all decide) (by with_unfolding_all decide)
  · exact c1_sum_counts_amended.2 [0, 3/5] [[1], [2]] 1 0 2 0 true c1ResF
      (by with_unfolding_all decide) (by with_unfolding_all decide)
      (by with_unfolding_all decide)

/-- Counterexample to C1 as stated: one sample (`N = 1`), two bins, offset
equal to half a bin width and the wraparound-duplicate flag on — the
duplicate entry also duplicates its count, and the counts sum to 2 ≠ 1. -/
theorem c1_sum_counts_counterexample :
    ((phase_average_array zeroAngle [5/18] [7] 1 0 2 (some 90) true false
        "iter" none).map (fun r => r.bin_counts.sum) = Except.ok 2)
      ∧ [(7 : ℚ)].length = 1 := by
  constructor
  · with_unfolding_all decide
  · rfl

/-- C2: the concrete scenario `time = [0, 1/4, 1/2, 3/4]`,
`value = [1, 2, 3, 4]`, `frequency = 1`, `number_of_bins = 4`,
`bin_center_offset = 0`.  The field variant (the claim's cited code) puts
one sample in each bin at the claimed midpoints `[1/8, 3/8, 5/8, 7/8]`, but
every one-sample bin takes the "empty bin" branch, so all means, covariances
and stds are NaN — not the claimed means `[1, 2, 3, 4]` with std 0.  (Those
numbers are what the legacy degree-based variant produces, second conjunct;
with flat scalar input the field variant even raises an IndexError on
`y_arr[0].shape[0]`, so the samples are passed as 1-vectors here.) -/
theorem c2_scenario_field_nan :
    (phase_average_field [0, 1/4, 1/2, 3/4] [[1], [2], [3], [4]] 1 0 4 (some 0)
        true = Except.ok
          { bin_midpoints := [1/8, 3/8, 5/8, 7/8]
            phase_averaged_mean := [[none], [none], [none], [none]]
            phase_averaged_covariance := [[[none]], [[none]], [[none]], [[none]]]
            bin_counts := [1, 1, 1, 1, 0] })
      ∧ (phase_average_array zeroAngle [0, 1/4, 1/2, 3/4] [1, 2, 3, 4] 1 0 4
          (some 0) true false "iter" none = Except.ok
          { bin_midpoints := [45, 135, 225, 315]
            phase_averaged_mean := [1, 2, 3, 4]
            phase_averaged_var := [0, 0, 0, 0]
            bin_counts := [1, 1, 1, 1, 0] }) := by
  constructor <;> with_unfolding_all decide

/-- C3: a two-sample bin and a one-sample bin
(`time = [0, 1/10, 3/5]`, 2-component samples, 2 bins).  The two-sample bin
gets the unbiased (N−1) sample covariance `[[2,2],[2,2]]` of
`[[1,2],[3,4]]`, as the claim says; but the one-sample bin (count 1) gets a
NaN *mean* as well as the NaN covariance — the code's `len(group) > 1` test
routes single-sample bins through the empty-bin branch (which even prints
"Warning: empty bin"), contradicting the claim that the mean is defined. -/
theorem c3_one_sample_bin_mean_nan :
    phase_average_field [0, 1/10, 3/5] [[1, 2], [3, 4], [5, 6]] 1 0 2 (some 0)
        true = Except.ok
      { bin_midpoints := [1/4, 3/4]
        phase_averaged_mean := [[some 2, some 3], [none, none]]
        phase_averaged_covariance :=
          [[[some 2, some 2], [some 2, some 2]], [[none, none], [none, none]]]
        bin_counts := [2, 1, 0] } := by
  with_unfolding_all decide

/-- C5: with four samples at spacing `1/4` the FFT frequency bins are
`[0, 1, -2, -1]`; the target frequency `1/2` matches none of them within the
`1e-3` tolerance, yet the index selection returns `0` (the DC bin, whose
frequency `0` is not the target) and the engine silently returns a normal
result instead of surfacing a FrequencyNotResolved error. -/
theorem c5_unresolved_frequency_silent_default :
    (resolveIndex (fftfreq 4 (1/4)) (1/2) = 0)
      ∧ ((fftfreq 4 (1/4)).countP (fun fr => decide (|fr - 1/2| < 1/1000)) = 0)
      ∧ ((fftfreq 4 (1/4)).getD 0 0 = 0)
      ∧ ((phase_average_array zeroAngle [0, 1/4, 1/2, 3/4] [1, 2, 3, 4] (1/2) 0
          4 (some 0) false true "iter" none).map (fun r => r.bin_counts.sum)
        = Except.ok 4) := by
  refine ⟨?_, ?_, ?_, ?_⟩ <;> with_unfolding_all decide

/-- C8: with `number_of_bins = 1` and a nonzero `bin_center_offset` (an
explicit one, or the nonzero default `180/1`), both variants evaluate
`period/(number_of_bins - 1)` and raise a ZeroDivisionError — not the
InvalidParameter (ValueError) the claim requires.  With an explicit zero
offset the single-bin behavior the claim describes does hold: one bin
spanning the period, midpoint `180 = period/2`, containing all samples. -/
theorem c8_single_bin_zero_division :
    (phase_average_array zeroAngle [0, 1/2] [1, 2] 1 0 1 (some 10) true false
        "iter" none = Except.error PAError.zeroDivisionError)
      ∧ (phase_average_array zeroAngle [0, 1/2] [1, 2] 1 0 1 none true false
        "iter" none = Except.error PAError.zeroDivisionError)
      ∧ (phase_average_field [0, 1/2] [[1], [2]] 1 0 1 (some (1/2)) true
        = Except.error PAError.zeroDivisionError)
      ∧ (phase_average_array zeroAngle [0, 1/2] [1, 2] 1 0 1 (some 0) true false
        "iter" none = Except.ok
          { bin_midpoints := [180]
            phase_averaged_mean := [3/2]
            phase_averaged_var := [1/4]
            bin_counts := [2, 0] }) := by
  refine ⟨?_, ?_, ?_, ?_⟩ <;> with_unfolding_all decide

theorem checkedOffset_neg (p : ℚ) (nb : ℕ) {c : ℚ} (hc : c < 0) :
    checkedOffset p nb (some c) = Except.error PAError.valueError := by
  have hne : c ≠ 0 := ne_of_lt hc
  simp [checkedOffset, hne, hc, ok_bind, throw_eq_error]

theorem checkedOffset_wide (p : ℚ) (hp : 0 < p) (nb : ℕ) (hnb : 2 ≤ nb) {c : ℚ}
    (hc : p / ((nb : ℚ) - 1) < c) :
    checkedOffset p nb (some c) = Except.error PAError.valueError := by
  have hnb1 : (0 : ℚ) < (nb : ℚ) - 1 := by
    have : (2 : ℚ) ≤ (nb : ℚ) := by exact_mod_cast hnb
    linarith
  have hcpos : 0 < c := lt_trans (div_pos hp hnb1) hc
  have hne : c ≠ 0 := ne_of_gt hcpos
  have h1 : ¬ c < 0 := not_lt.mpr hcpos.le
  have h2 : ¬ ((nb : ℤ) - 1 = 0) := by
    have : (2 : ℤ) ≤ (nb : ℤ) := by exact_mod_cast hnb
    omega
  simp [checkedOffset, hne, h1, h2, hc, ok_bind, throw_eq_error]

theorem pa_array_offset_error (oracle : List ℚ → ℕ → ℚ) (t y : List ℚ)
    (f po : ℚ) (nb : ℕ) (bco : Option ℚ) (inc rm : Bool) (base : String)
    (dT : Option (List ℚ)) (e : PAError)
    (h : checkedOffset 360 nb bco = Except.error e) :
    phase_average_array oracle t y f po nb bco inc rm base dT
      = Except.error e := by
  simp only [phase_average_array]
  rw [h, error_bind]

theorem pa_field_offset_error (t : List ℚ) (y : List (List ℚ)) (f po : ℚ)
    (nb : ℕ) (bco : Option ℚ) (inc : Bool) (e : PAError)
    (h : checkedOffset 1 nb bco = Except.error e) :
    phase_average_field t y f po nb bco inc = Except.error e := by
  simp only [phase_average_field]
  rw [h, error_bind]

/-- C7 (amended): only `bin_center_offset` is validated.  A negative offset,
or (for `nb ≥ 2`) an offset exceeding `period/(nb−1)`, makes both variants
raise ValueError before any binning; non-positive `number_of_bins` and
non-positive `frequency` are *not* rejected (see the counterexample). -/
theorem c7_offset_validation_amended :
    (∀ (oracle : List ℚ → ℕ → ℚ) (t y : List ℚ) (f po : ℚ) (nb : ℕ) (c : ℚ)
        (inc rm : Bool) (base : String) (dT : Option (List ℚ)), c < 0 →
      phase_average_array oracle t y f po nb (some c) inc rm base dT
        = Except.error PAError.valueError)
    ∧ (∀ (oracle : List ℚ → ℕ → ℚ) (t y : List ℚ) (f po : ℚ) (nb : ℕ) (c : ℚ)
        (inc rm : Bool) (base : String) (dT : Option (List ℚ)),
      2 ≤ nb → 360 / ((nb : ℚ) - 1) < c →
      phase_average_array oracle t y f po nb (some c) inc rm base dT
        = Except.error PAError.valueError)
    ∧ (∀ (t : List ℚ) (y : List (List ℚ)) (f po : ℚ) (nb : ℕ) (c : ℚ)
        (inc : Bool), c < 0 →
      phase_average_field t y f po nb (some c) inc
        = Except.error PAError.valueError)
    ∧ (∀ (t : List ℚ) (y : List (List ℚ)) (f po : ℚ) (nb : ℕ) (c : ℚ)
        (inc : Bool), 2 ≤ nb → 1 / ((nb : ℚ) - 1) < c →
      phase_average_field t y f po nb (some c) inc
        = Except.error PAError.valueError) := by
  refine ⟨?_, ?_, ?_, ?_⟩
  · intro oracle t y f po nb c inc rm base dT hc
    exact pa_array_offset_error _ _ _ _ _ _ _ _ _ _ _ _ (checkedOffset_neg 360 nb hc)
  · intro oracle t y f po nb c inc rm base dT hnb hc
    exact pa_array_offset_error _ _ _ _ _ _ _ _ _ _ _ _
      (checkedOffset_wide 360 (by norm_num) nb hnb hc)
  · intro t y f po nb c inc hc
    exact pa_field_offset_error _ _ _ _ _ _ _ _ (checkedOffset_neg 1 nb hc)
  · intro t y f po nb c inc hnb hc
    exact pa_field_offset_error _ _ _ _ _ _ _ _
      (checkedOffset_wide 1 (by norm_num) nb hnb hc)

/-- Witness for C7 (amended): concrete rejected offsets for both variants. -/
theorem c7_offset_validation_amended_witness :
    (phase_average_array zeroAngle [0] [1] 1 0 4 (some (-1)) true false "iter"
        none = Except.error PAError.valueError)
      ∧ (phase_average_array zeroAngle [0] [1] 1 0 4 (some 121) true false
        "iter" none = Except.error PAError.valueError)
      ∧ (phase_average_field [0] [[1]] 1 0 4 (some (-1)) true
        = Except.error PAError.valueError)
      ∧ (phase_average_field [0] [[1]] 1 0 4 (some (1/2)) true
        = Except.error PAError.valueError) := by
  refine ⟨c7_offset_validation_amended.1 zeroAngle [0] [1] 1 0 4 (-1) true false
      "iter" none (by norm_num),
    c7_offset_validation_amended.2.1 zeroAngle [0] [1] 1 0 4 121 true false
      "iter" none (by norm_num) (by norm_num),
    c7_offset_validation_amended.2.2.1 [0] [[1]] 1 0 4 (-1) true (by norm_num),
    c7_offset_validation_amended.2.2.2 [0] [[1]] 1 0 4 (1/2) true (by norm_num)
      (by norm_num)⟩

/-- Counterexample to C7 as stated: a zero frequency (array variant) and a
negative frequency (field variant, two-component samples) are accepted
without any error — the engine performs no frequency or bin-count
validation. -/
theorem c7_no_frequency_validation_counterexample :
    ((phase_average_array zeroAngle [0] [1] 0 0 4 (some 0) false false "iter"
        none).map (fun r => r.bin_counts.sum) = Except.ok 1)
      ∧ ((phase_average_field [0, 3/5] [[1, 2], [3, 4]] (-1) 0 2 (some 0)
          true).map (fun r => r.bin_counts.sum) = Except.ok 2) := by
  constructor <;> with_unfolding_all decide

/-- C4 (amended): the degree-based variant's phase mapper behaves exactly as
claimed — `phase[i] = (frequency * time[i] * 360 + phase_offset) mod 360`,
always in `[0, 360)` (negative times included), empty input giving an empty
array.  The unit-cycle variant computes `phase[i] = (frequency * time[i])
mod 1` in `[0, 1)`, but its `phase_offset` parameter is *ignored* (the
entire `phase_average_field` result is independent of it), so the claimed
`+ phase_offset` term is absent there. -/
theorem c4_phase_mapper_amended :
    (∀ (t : List ℚ) (f po : ℚ), (phaseArrDeg t f po).length = t.length)
    ∧ (∀ (t : List ℚ) (f po : ℚ) (i : ℕ), i < t.length →
        (phaseArrDeg t f po).getD i 0 = qmod (f * t.getD i 0 * 360 + po) 360)
    ∧ (∀ (t : List ℚ) (f po x : ℚ), x ∈ phaseArrDeg t f po → 0 ≤ x ∧ x < 360)
    ∧ (∀ f po : ℚ, phaseArrDeg [] f po = [])
    ∧ (∀ (t : List ℚ) (f : ℚ), (phaseArrCycle t f).length = t.length)
    ∧ (∀ (t : List ℚ) (f : ℚ) (i : ℕ), i < t.length →
        (phaseArrCycle t f).getD i 0 = qmod (f * t.getD i 0 * 1) 1)
    ∧ (∀ (t : List ℚ) (f x : ℚ), x ∈ phaseArrCycle t f → 0 ≤ x ∧ x < 1)
    ∧ (∀ f : ℚ, phaseArrCycle [] f = [])
    ∧ (∀ (t : List ℚ) (y : List (List ℚ)) (f : ℚ) (nb : ℕ) (bco : Option ℚ)
        (inc : Bool) (po po' : ℚ),
        phase_average_field t y f po nb bco inc
          = phase_average_field t y f po' nb bco inc) := by
  have h360 : (0 : ℚ) < 360 := by norm_num
  have h1 : (0 : ℚ) < 1 := by norm_num
  refine ⟨?_, ?_, ?_, ?_, ?_, ?_, ?_, ?_, ?_⟩
  · intro t f po
    unfold phaseArrDeg
    rw [List.length_map]
  · intro t f po i hi
    unfold phaseArrDeg
    rw [List.getD_eq_getElem _ _ (by rw [List.length_map]; exact hi),
      List.getElem_map, List.getD_eq_getElem _ _ hi]
    ring_nf
  · intro t f po x hx
    obtain ⟨ti, _, hti⟩ := List.mem_map.mp hx
    subst hti
    exact ⟨qmod_nonneg _ h360, qmod_lt _ h360⟩
  · intro f po
    rfl
  · intro t f
    unfold phaseArrCycle
    rw [List.length_map]
  · intro t f i hi
    unfold phaseArrCycle
    rw [List.getD_eq_getElem _ _ (by rw [List.length_map]; exact hi),
      List.getElem_map, List.getD_eq_getElem _ _ hi]
    ring_nf
  · intro t f x hx
    obtain ⟨ti, _, hti⟩ := List.mem_map.mp hx
    subst hti
    exact ⟨qmod_nonneg _ h1, qmod_lt _ h1⟩
  · intro f
    rfl
  · intro t y f nb bco inc po po'
    rfl

/-- Witness for C4 (amended): the formula, bounds and emptiness clauses
evaluated at a concrete negative time. -/
theorem c4_phase_mapper_amended_witness :
    ((0 : ℕ) < [(-1 : ℚ)/4].length)
      ∧ (phaseArrDeg [(-1 : ℚ)/4] 1 0).getD 0 0
          = qmod (1 * ([(-1 : ℚ)/4].getD 0 0) * 360 + 0) 360
      ∧ (phaseArrCycle [(-1 : ℚ)/4] 1).getD 0 0
          = qmod (1 * ([(-1 : ℚ)/4].getD 0 0) * 1) 1 := by
  refine ⟨by decide, ?_, ?_⟩
  · exact c4_phase_mapper_amended.2.1 [(-1 : ℚ)/4] 1 0 0 (by decide)
  · exact c4_phase_mapper_amended.2.2.2.2.2.1 [(-1 : ℚ)/4] 1 0 (by decide)

/-- Counterexample to C4 as stated: at `time = [0]`, `frequency = 1`,
`phase_offset = 1/2`, the spec formula for the unit-cycle variant demands
phase `1/2`, but the field variant's phase mapper (which never reads
`phase_offset`) computes `0`. -/
theorem c4_field_ignores_offset_counterexample :
    (phaseArrCycle [0] 1 = [0])
      ∧ (specPhase 1 1 [0] 1 (1/2) = [1/2])
      ∧ ((0 : ℚ) ≠ 1/2) := by
  refine ⟨?_, ?_, ?_⟩ <;> with_unfolding_all decide

/-- C10 (amended): with `remove_phase_offset = True` the result is
independent of the `deltaT` argument (the time-weighted binning branch is
skipped), for every spectral-angle function; but it is *not* independent of
`base` — line 222 still replaces per-bin means with per-bin sums when
`base = "time"` (see the counterexample). -/
theorem c10_remove_deltaT_independent_amended :
    ∀ (oracle : List ℚ → ℕ → ℚ) (t y : List ℚ) (f po : ℚ) (nb : ℕ)
      (bco : Option ℚ) (inc : Bool) (base : String) (dT dT' : Option (List ℚ)),
      phase_average_array oracle t y f po nb bco inc true base dT
        = phase_average_array oracle t y f po nb bco inc true base dT' := by
  intro oracle t y f po nb bco inc base dT dT'
  rfl

/-- Counterexample to C10 as stated: a constant four-sample signal (its FFT
is `[4, 0, 0, 0]`, so `np.degrees(np.angle(fft[i])) = 0` exactly for every
index, justifying the `zeroAngle` oracle), with `remove_phase_offset = True`:
`base = "time"` yields per-bin sums `[2, 2]` while `base = "iter"` yields
per-bin means `[1, 1]` — the results differ. -/
theorem argsort_length (l : List ℚ) : (argsort l).length = l.length := by
  unfold argsort
  rw [List.length_map, (List.perm_insertionSort pairLe l.enum).length_eq,
    List.enum_length]

theorem gather_length {α : Type} (l : List α) (inds : List ℕ) (d : α) :
    (gather l inds d).length = inds.length := by
  unfold gather
  rw [List.length_map]

theorem headD_map_length {α : Type} (b : List (List α)) (hb : b ≠ []) :
    (b.map (·.length)).headD 0 = (b.headD []).length := by
  cases b with
  | nil => cases hb rfl
  | cons a t => rfl

theorem mergeWrap_ne_nil {α : Type} (g0 g1 : List α) (b : List (List α)) :
    mergeWrap (g0 :: g1 :: b) ≠ [] := by
  intro h
  have := mergeWrap_length g0 g1 b
  rw [h] at this
  simp at this

theorem gather_mids_strict (p : ℚ) (hp : 0 < p) (nb : ℕ) (hnb : 1 ≤ nb)
    (c : ℚ) :
    (gather (buildGrid p nb c).2 (argsort (buildGrid p nb c).2) 0).Pairwise
      (· < ·) :=
  pairwise_lt_of_le_nodup (gather_argsort_sorted _ _)
    ((gather_argsort_perm _ _).nodup_iff.mpr (buildGrid_mids_nodup p hp nb hnb c))

theorem groupsByIndex_nil {α : Type} (inds : List ℕ) (k : ℕ) :
    ∀ g ∈ groupsByIndex ([] : List α) inds k, g = [] := by
  intro g hg
  unfold groupsByIndex at hg
  obtain ⟨i, _, hgi⟩ := List.mem_map.mp hg
  subst hgi
  simp

theorem headD_all {α : Type} {l : List α} {v : α} (h : ∀ x ∈ l, x = v)
    (d : α) (hd : d = v) : l.headD d = v := by
  cases l with
  | nil => exact hd
  | cons a t => exact h a (List.mem_cons_self a t)

theorem getLastD_all {α : Type} {l : List α} {v : α} (h : ∀ x ∈ l, x = v)
    (d : α) (hd : d = v) : l.getLastD d = v := by
  cases l with
  | nil => exact hd
  | cons a t => exact h _ (getLastD_mem d (List.cons_ne_nil a t))

theorem mergeWrap_all_nil {α : Type} (b : List (List α))
    (h : ∀ g ∈ b, g = []) : ∀ g ∈ mergeWrap b, g = [] := by
  intro g hg
  rcases mergeWrap_mem b g hg with hm | he
  · exact h g hm
  · rw [he, headD_all h [] rfl, getLastD_all h [] rfl]
    rfl

theorem gather_all {α : Type} (l : List α) (inds : List ℕ) {v : α}
    (hl : ∀ x ∈ l, x = v) (d : α) (hd : d = v) :
    ∀ x ∈ gather l inds d, x = v := by
  intro x hx
  unfold gather at hx
  obtain ⟨i, _, hxi⟩ := List.mem_map.mp hx
  subst hxi
  by_cases hi : i < l.length
  · rw [List.getD_eq_getElem _ _ hi]
    exact hl _ (List.getElem_mem hi)
  · rw [List.getD_eq_default _ _ (le_of_not_lt hi)]
    exact hd

/-- On empty inputs with `base = "iter"` and no spectral correction, the
array engine runs to completion and all its groups are empty. -/
theorem pa_array_empty (oracle : List ℚ → ℕ → ℚ) (f po : ℚ) (nb : ℕ) (c : ℚ)
    (inc : Bool) (hco : checkedOffset 360 nb (some c) = Except.ok c) :
    ∃ binned,
      phase_average_array oracle [] [] f po nb (some c) inc false "iter" none
          = Except.ok (assembleArray c inc "iter" binned (buildGrid 360 nb c).2)
        ∧ ∀ g ∈ binned, g = [] := by
  simp only [phase_average_array]
  rw [hco, ok_bind]
  simp only [binnedArray]
  rw [if_neg (by simp), if_neg (by decide), ok_bind, pure_eq_ok]
  exact ⟨_, rfl, groupsByIndex_nil _ _⟩

/-- On empty inputs with the spectral correction requested, the array
engine raises: `np.fft.fft` rejects zero data points. -/
theorem pa_array_empty_remove (oracle : List ℚ → ℕ → ℚ) (f po : ℚ) (nb : ℕ)
    (c : ℚ) (inc : Bool) (base : String) (dT : Option (List ℚ))
    (hco : checkedOffset 360 nb (some c) = Except.ok c) :
    phase_average_array oracle [] [] f po nb (some c) inc true base dT
      = Except.error PAError.valueError := by
  simp only [phase_average_array]
  rw [hco, ok_bind]
  simp only [binnedArray]
  rw [if_pos trivial, if_pos (List.length_nil : ([] : List ℚ).length = 0),
    error_bind]

/-- All per-bin statistics of an assembled array result over empty groups
are zero. -/
theorem assembleArray_empty_zeros (c : ℚ) (inc : Bool) (base : String)
    (binned : List (List ℚ)) (mids : List ℚ) (hb : ∀ g ∈ binned, g = []) :
    (∀ x ∈ (assembleArray c inc base binned mids).phase_averaged_mean, x = 0)
      ∧ (∀ x ∈ (assembleArray c inc base binned mids).phase_averaged_var, x = 0)
      ∧ (∀ n ∈ (assembleArray c inc base binned mids).bin_counts, n = 0) := by
  have hb2 : ∀ g ∈ (if c ≠ 0 then mergeWrap binned else binned), g = [] := by
    by_cases hc : c = 0
    · simpa [hc] using hb
    · simp only [hc, ne_eq, not_false_eq_true, ite_true]
      exact mergeWrap_all_nil binned hb
  have hmean : ∀ x ∈ (if base = "time" then
      (if c ≠ 0 then mergeWrap binned else binned).map
        (fun g => if 0 < g.length then g.sum else 0)
    else (if c ≠ 0 then mergeWrap binned else binned).map
        (fun g => if 0 < g.length then npmean g else 0)), x = (0 : ℚ) := by
    intro x hx
    split at hx <;>
    · obtain ⟨g, hg, hgx⟩ := List.mem_map.mp hx
      rw [hb2 g hg] at hgx
      simpa using hgx.symm
  have hvar : ∀ x ∈ (if c ≠ 0 then mergeWrap binned else binned).map
      (fun g => if 0 < g.length then popVar g else 0), x = (0 : ℚ) := by
    intro x hx
    obtain ⟨g, hg, hgx⟩ := List.mem_map.mp hx
    rw [hb2 g hg] at hgx
    simpa using hgx.symm
  have hcounts : ∀ n ∈ (if c ≠ 0 then mergeWrap binned else binned).map
      (·.length), n = 0 := by
    intro n hn
    obtain ⟨g, hg, hgn⟩ := List.mem_map.mp hn
    rw [hb2 g hg] at hgn
    simpa using hgn.symm
  simp only [assembleArray]
  split
  · refine ⟨?_, ?_, ?_⟩
    · intro x hx
      rcases List.mem_append.mp hx with h | h
      · exact gather_all _ _ hmean 0 rfl x h
      · rw [List.mem_singleton.mp h]
        exact headD_all (gather_all _ _ hmean 0 rfl) 0 rfl
    · intro x hx
      rcases List.mem_append.mp hx with h | h
      · exact gather_all _ _ hvar 0 rfl x h
      · rw [List.mem_singleton.mp h]
        exact headD_all (gather_all _ _ hvar 0 rfl) 0 rfl
    · intro n hn
      obtain ⟨g, hg, hgn⟩ := List.mem_map.mp hn
      have hgnil : g = [] := by
        rcases List.mem_append.mp hg with h | h
        · exact hb2 g h
        · rw [List.mem_singleton.mp h]
          exact headD_all hb2 [] rfl
      rw [hgnil] at hgn
      simpa using hgn.symm
  · exact ⟨gather_all _ _ hmean 0 rfl, gather_all _ _ hvar 0 rfl, hcounts⟩

/-- C6 (amended): on zero-length inputs the degree-based array variant with
`remove_phase_offset = False` (the default) returns a well-formed result
whose per-bin means, variances and counts are all zero, for every valid
configuration.  With `remove_phase_offset = True` even the array variant
raises a ValueError (`np.fft.fft` rejects zero data points, line 178), and
the field variant raises an IndexError (evaluating `y_arr[0]` in the
reduction loop) — so the claim holds only for the array variant's default
reduction path (see the counterexample). -/
theorem c6_empty_input_amended :
    (∀ (oracle : List ℚ → ℕ → ℚ) (f po : ℚ) (nb : ℕ) (c : ℚ) (inc : Bool),
      ValidConfig 360 nb c →
      (phase_average_array oracle [] [] f po nb (some c) inc false "iter"
          none).map
          (fun r => r.phase_averaged_mean.all (· == 0)
            && r.phase_averaged_var.all (· == 0)
            && r.bin_counts.all (· == 0))
        = Except.ok true)
    ∧ (∀ (oracle : List ℚ → ℕ → ℚ) (f po : ℚ) (nb : ℕ) (c : ℚ) (inc : Bool)
        (base : String) (dT : Option (List ℚ)),
      ValidConfig 360 nb c →
      phase_average_array oracle [] [] f po nb (some c) inc true base dT
        = Except.error PAError.valueError) := by
  constructor
  · intro oracle f po nb c inc hcfg
    obtain ⟨binned, hpa, hnil⟩ := pa_array_empty oracle f po nb c inc
      (checkedOffset_ok (by norm_num) hcfg)
    rw [hpa]
    have hz := assembleArray_empty_zeros c inc "iter" binned
      (buildGrid 360 nb c).2 hnil
    show Except.ok _ = Except.ok true
    congr 1
    rw [Bool.and_eq_true, Bool.and_eq_true]
    refine ⟨⟨List.all_eq_true.mpr ?_, List.all_eq_true.mpr ?_⟩,
      List.all_eq_true.mpr ?_⟩
    · intro x hx
      simpa using hz.1 x hx
    · intro x hx
      simpa using hz.2.1 x hx
    · intro n hn
      simpa using hz.2.2 n hn
  · intro oracle f po nb c inc base dT hcfg
    exact pa_array_empty_remove oracle f po nb c inc base dT
      (checkedOffset_ok (by norm_num) hcfg)

/-- Witness for C6 (amended): the default 45-bin configuration (default
offset `180/45 = 4`) on empty inputs. -/
theorem c6_empty_input_amended_witness :
    ValidConfig 360 45 4
      ∧ ((phase_average_array zeroAngle [] [] 1 0 45 (some 4) true false "iter"
          none).map (fun r => r.phase_averaged_mean.all (· == 0)
            && r.phase_averaged_var.all (· == 0)
            && r.bin_counts.all (· == 0))
        = Except.ok true)
      ∧ (phase_average_array zeroAngle [] [] 1 0 45 (some 4) true true "iter"
          none = Except.error PAError.valueError) :=
  ⟨by with_unfolding_all decide,
    c6_empty_input_amended.1 zeroAngle 1 0 45 4 true
      (by with_unfolding_all decide),
    c6_empty_input_amended.2 zeroAngle 1 0 45 4 true "iter" none
      (by with_unfolding_all decide)⟩

/-- Counterexample to C6 as stated: on zero-length inputs the field variant
raises an IndexError (with an explicit valid offset, and with the default
offset) instead of returning an all-empty result. -/
theorem c6_field_empty_input_counterexample :
    (phase_average_field [] [] 1 0 4 (some (1/8)) true
        = Except.error PAError.indexError)
      ∧ (phase_average_field [] [] 1 0 200 none true
        = Except.error PAError.indexError) := by
  constructor <;> with_unfolding_all decide

theorem c10_base_dependence_counterexample :
    phase_average_array zeroAngle [0, 1/4, 1/2, 3/4] [1, 1, 1, 1] 1 0 2 (some 0)
        false true "time" (some [1, 1, 1, 1])
      ≠ phase_average_array zeroAngle [0, 1/4, 1/2, 3/4] [1, 1, 1, 1] 1 0 2
        (some 0) false true "iter" none := by
  with_unfolding_all decide

theorem binnedArray_ok_length (oracle : List ℚ → ℕ → ℚ) (t y : List ℚ)
    (f : ℚ) (nb : ℕ) (bins : List ℚ) (phase : List ℚ) (rm : Bool)
    (base : String) (dT : Option (List ℚ)) (binned : List (List ℚ))
    (hbn : binnedArray oracle t y f nb bins phase rm base dT
      = Except.ok binned) : binned.length = nb + 1 := by
  simp only [binnedArray] at hbn
  split at hbn
  · split at hbn
    · cases hbn
    · rw [← Except.ok.inj hbn]
      exact groupsByIndex_length _ _ _
  · split at hbn
    · split at hbn
      · cases hbn
      · rw [← Except.ok.inj hbn, List.length_map, List.length_range']
    · rw [← Except.ok.inj hbn]
      exact groupsByIndex_length _ _ _

/-- Midpoint and duplicate properties of the assembled array result: the
midpoints are strictly ascending; when the trailing wraparound duplicate is
present (equivalently, the last midpoint equals 360) it copies the first
entries of the midpoint (+360), mean, variance and count arrays. -/
theorem assembleArray_c9 (nb : ℕ) (hnb : 1 ≤ nb) (c : ℚ) (inc : Bool)
    (base : String) (binned : List (List ℚ)) (mids : List ℚ)
    (hblen : binned.length = nb + 1)
    (hcnb : c ≠ 0 → 2 ≤ nb)
    (hpos0 : c = 0 → ∀ m ∈ mids, 0 < m)
    (hmlen : mids.length = nb)
    (hnn : ∀ m ∈ mids, 0 ≤ m ∧ m < 360)
    (hnd : mids.Nodup) :
    ((assembleArray c inc base binned mids).bin_midpoints.getLastD 0 ≠ 360 →
      (assembleArray c inc base binned mids).bin_midpoints.Pairwise (· < ·))
    ∧ ((assembleArray c inc base binned mids).bin_midpoints.getLastD 0 = 360 →
      (assembleArray c inc base binned mids).bin_midpoints.dropLast.Pairwise
          (· < ·)
        ∧ (assembleArray c inc base binned mids).bin_midpoints.getLastD 0
          = (assembleArray c inc base binned mids).bin_midpoints.headD 0 + 360
        ∧ (assembleArray c inc base binned mids).phase_averaged_mean.getLastD 0
          = (assembleArray c inc base binned mids).phase_averaged_mean.headD 0
        ∧ (assembleArray c inc base binned mids).phase_averaged_var.getLastD 0
          = (assembleArray c inc base binned mids).phase_averaged_var.headD 0
        ∧ (assembleArray c inc base binned mids).bin_counts.getLastD 0
          = (assembleArray c inc base binned mids).bin_counts.headD 0) := by
  have hperm := gather_argsort_perm mids 0
  have hsorted_le := gather_argsort_sorted mids 0
  have hstrict : (gather mids (argsort mids) 0).Pairwise (· < ·) :=
    pairwise_lt_of_le_nodup hsorted_le (hperm.nodup_iff.mpr hnd)
  have hlen_s : (gather mids (argsort mids) 0).length = nb := by
    rw [hperm.length_eq, hmlen]
  have hne_s : gather mids (argsort mids) 0 ≠ [] := by
    intro h
    rw [h] at hlen_s
    simp at hlen_s
    omega
  have hlt360 : ∀ m ∈ gather mids (argsort mids) 0, m < 360 :=
    fun m hm => (hnn m (hperm.mem_iff.mp hm)).2
  have hge0 : ∀ m ∈ gather mids (argsort mids) 0, 0 ≤ m :=
    fun m hm => (hnn m (hperm.mem_iff.mp hm)).1
  simp only [assembleArray]
  split
  · rename_i hdup
    have hc : c ≠ 0 := by
      intro hc0
      have h0m : (0 : ℚ) ∈ mids := hperm.mem_iff.mp hdup.2
      exact absurd (hpos0 hc0 0 h0m) (lt_irrefl 0)
    have h2nb := hcnb hc
    have hb2ne : (if c ≠ 0 then mergeWrap binned else binned) ≠ [] := by
      rcases binned with _ | ⟨g0, _ | ⟨g1, b⟩⟩
      · simp at hblen
      · simp at hblen
        omega
      · simp only [hc, ne_eq, not_false_eq_true, ite_true]
        exact mergeWrap_ne_nil g0 g1 b
    constructor
    · intro hne
      exact absurd (getLastD_append_singleton _ 360 0) hne
    · intro _
      have hmean_len : (gather (if base = "time" then
          (if c ≠ 0 then mergeWrap binned else binned).map
            (fun g => if 0 < g.length then g.sum else 0)
          else (if c ≠ 0 then mergeWrap binned else binned).map
            (fun g => if 0 < g.length then npmean g else 0))
          (argsort mids) 0).length = nb := by
        rw [gather_length, argsort_length, hmlen]
      have hmean_ne : (gather (if base = "time" then
          (if c ≠ 0 then mergeWrap binned else binned).map
            (fun g => if 0 < g.length then g.sum else 0)
          else (if c ≠ 0 then mergeWrap binned else binned).map
            (fun g => if 0 < g.length then npmean g else 0))
          (argsort mids) 0) ≠ [] := by
        intro h
        rw [h] at hmean_len
        simp at hmean_len
        omega
      have hvar_ne : (gather ((if c ≠ 0 then mergeWrap binned else binned).map
          (fun g => if 0 < g.length then popVar g else 0))
          (argsort mids) 0) ≠ [] := by
        intro h
        have := gather_length ((if c ≠ 0 then mergeWrap binned else binned).map
          (fun g => if 0 < g.length then popVar g else 0)) (argsort mids) (0 : ℚ)
        rw [h, argsort_length, hmlen] at this
        simp at this
        omega
      refine ⟨?_, ?_, ?_, ?_, ?_⟩
      · rw [List.dropLast_concat]
        exact hstrict
      · rw [getLastD_append_singleton, headD_append_of_ne_nil _ _ hne_s,
          sorted_headD_eq_zero hsorted_le hdup.2 hge0]
        norm_num
      · rw [getLastD_append_singleton, headD_append_of_ne_nil _ _ hmean_ne]
      · rw [getLastD_append_singleton, headD_append_of_ne_nil _ _ hvar_ne]
      · rw [List.map_append, List.map_cons, List.map_nil,
          getLastD_append_singleton,
          headD_append_of_ne_nil _ _ (by
            intro h
            exact hb2ne (List.map_eq_nil.mp h)),
          headD_map_length _ hb2ne]
  · constructor
    · intro _
      exact hstrict
    · intro heq
      exact absurd heq (ne_of_lt (hlt360 _ (getLastD_mem 0 hne_s)))

/-- Field-variant analog of `assembleArray_c9` (the dispersion is the
covariance matrix here). -/
theorem assembleField_c9 (nb : ℕ) (hnb : 1 ≤ nb) (inc : Bool)
    (binned2 : List (List (List ℚ))) (mids : List ℚ)
    (ml : List (List QN)) (cl : List (List (List QN)))
    (hb2ne : binned2 ≠ [])
    (hmlen : mids.length = nb)
    (hnn : ∀ m ∈ mids, 0 ≤ m ∧ m < 1)
    (hnd : mids.Nodup) :
    ((assembleField inc binned2 mids ml cl).bin_midpoints.getLastD 0 ≠ 1 →
      (assembleField inc binned2 mids ml cl).bin_midpoints.Pairwise (· < ·))
    ∧ ((assembleField inc binned2 mids ml cl).bin_midpoints.getLastD 0 = 1 →
      (assembleField inc binned2 mids ml cl).bin_midpoints.dropLast.Pairwise
          (· < ·)
        ∧ (assembleField inc binned2 mids ml cl).bin_midpoints.getLastD 0
          = (assembleField inc binned2 mids ml cl).bin_midpoints.headD 0 + 1
        ∧ (assembleField inc binned2 mids ml cl).phase_averaged_mean.getLastD []
          = (assembleField inc binned2 mids ml cl).phase_averaged_mean.headD []
        ∧ (assembleField inc binned2 mids ml
            cl).phase_averaged_covariance.getLastD []
          = (assembleField inc binned2 mids ml
            cl).phase_averaged_covariance.headD []
        ∧ (assembleField inc binned2 mids ml cl).bin_counts.getLastD 0
          = (assembleField inc binned2 mids ml cl).bin_counts.headD 0) := by
  have hperm := gather_argsort_perm mids 0
  have hsorted_le := gather_argsort_sorted mids 0
  have hstrict : (gather mids (argsort mids) 0).Pairwise (· < ·) :=
    pairwise_lt_of_le_nodup hsorted_le (hperm.nodup_iff.mpr hnd)
  have hlen_s : (gather mids (argsort mids) 0).length = nb := by
    rw [hperm.length_eq, hmlen]
  have hne_s : gather mids (argsort mids) 0 ≠ [] := by
    intro h
    rw [h] at hlen_s
    simp at hlen_s
    omega
  have hlt1 : ∀ m ∈ gather mids (argsort mids) 0, m < 1 :=
    fun m hm => (hnn m (hperm.mem_iff.mp hm)).2
  have hge0 : ∀ m ∈ gather mids (argsort mids) 0, 0 ≤ m :=
    fun m hm => (hnn m (hperm.mem_iff.mp hm)).1
  have hml_ne : gather ml (argsort mids) ([] : List QN) ≠ [] := by
    intro h
    have := gather_length ml (argsort mids) ([] : List QN)
    rw [h, argsort_length, hmlen] at this
    simp at this
    omega
  have hcl_ne : gather cl (argsort mids) ([] : List (List QN)) ≠ [] := by
    intro h
    have := gather_length cl (argsort mids) ([] : List (List QN))
    rw [h, argsort_length, hmlen] at this
    simp at this
    omega
  simp only [assembleField]
  split
  · rename_i hdup
    constructor
    · intro hne
      exact absurd (getLastD_append_singleton _ 1 0) hne
    · intro _
      refine ⟨?_, ?_, ?_, ?_, ?_⟩
      · rw [List.dropLast_concat]
        exact hstrict
      · rw [getLastD_append_singleton, headD_append_of_ne_nil _ _ hne_s,
          sorted_headD_eq_zero hsorted_le hdup.2 hge0]
        norm_num
      · rw [getLastD_append_singleton, headD_append_of_ne_nil _ _ hml_ne]
      · rw [getLastD_append_singleton, headD_append_of_ne_nil _ _ hcl_ne]
      · rw [List.map_append, List.map_cons, List.map_nil,
          getLastD_append_singleton,
          headD_append_of_ne_nil _ _ (by
            intro h
            exact hb2ne (List.map_eq_nil.mp h)),
          headD_map_length _ hb2ne]
  · constructor
    · intro _
      exact hstrict
    · intro heq
      exact absurd heq (ne_of_lt (hlt1 _ (getLastD_mem 0 hne_s)))

theorem fieldBinned_ne_nil (t : List ℚ) (y : List (List ℚ)) (f : ℚ) (nb : ℕ)
    (c : ℚ) (hnb : 1 ≤ nb) (hcnb : c ≠ 0 → 2 ≤ nb) :
    fieldBinned t y f nb c ≠ [] := by
  have hglen : (groupsByIndex y ((phaseArrCycle t f).map
      (fun p => digitize p (buildGrid 1 nb c).1)) (nb + 1)).length = nb + 1 :=
    groupsByIndex_length _ _ _
  unfold fieldBinned
  by_cases hc : c = 0
  · subst hc
    simp only [ne_eq, not_true_eq_false, ite_false]
    intro h
    rw [h] at hglen
    simp at hglen
  · have h2 := hcnb hc
    simp only [hc, ne_eq, not_false_eq_true, ite_true]
    rcases hg : groupsByIndex y ((phaseArrCycle t f).map
        (fun p => digitize p (buildGrid 1 nb c).1)) (nb + 1)
      with _ | ⟨g0, _ | ⟨g1, b⟩⟩
    · rw [hg] at hglen
      simp at hglen
    · rw [hg] at hglen
      simp at hglen
      omega
    · exact mergeWrap_ne_nil g0 g1 b

/-- C9 (confirmed): for every valid configuration of either variant, the
result's bin midpoints are strictly ascending, except that when a trailing
wraparound duplicate is present (equivalently, the final midpoint equals the
period — 360 resp. 1) the midpoints minus that entry are strictly ascending,
the duplicate's midpoint equals the first midpoint plus the period, and the
duplicate's mean, dispersion (variance resp. covariance) and count equal the
first entries of the respective arrays. -/
theorem c9_midpoints_ascending_dup :
    (∀ (oracle : List ℚ → ℕ → ℚ) (t y : List ℚ) (f po : ℚ) (nb : ℕ) (c : ℚ)
        (inc rm : Bool) (base : String) (dT : Option (List ℚ)) (r : PAResult),
      ValidConfig 360 nb c →
      phase_average_array oracle t y f po nb (some c) inc rm base dT
        = Except.ok r →
      (r.bin_midpoints.getLastD 0 ≠ 360 → r.bin_midpoints.Pairwise (· < ·))
      ∧ (r.bin_midpoints.getLastD 0 = 360 →
          r.bin_midpoints.dropLast.Pairwise (· < ·)
          ∧ r.bin_midpoints.getLastD 0 = r.bin_midpoints.headD 0 + 360
          ∧ r.phase_averaged_mean.getLastD 0 = r.phase_averaged_mean.headD 0
          ∧ r.phase_averaged_var.getLastD 0 = r.phase_averaged_var.headD 0
          ∧ r.bin_counts.getLastD 0 = r.bin_counts.headD 0))
    ∧ (∀ (t : List ℚ) (y : List (List ℚ)) (f po : ℚ) (nb : ℕ) (c : ℚ)
        (inc : Bool) (r : PAFieldResult),
      ValidConfig 1 nb c →
      phase_average_field t y f po nb (some c) inc = Except.ok r →
      (r.bin_midpoints.getLastD 0 ≠ 1 → r.bin_midpoints.Pairwise (· < ·))
      ∧ (r.bin_midpoints.getLastD 0 = 1 →
          r.bin_midpoints.dropLast.Pairwise (· < ·)
          ∧ r.bin_midpoints.getLastD 0 = r.bin_midpoints.headD 0 + 1
          ∧ r.phase_averaged_mean.getLastD []
            = r.phase_averaged_mean.headD []
          ∧ r.phase_averaged_covariance.getLastD []
            = r.phase_averaged_covariance.headD []
          ∧ r.bin_counts.getLastD 0 = r.bin_counts.headD 0)) := by
  constructor
  · intro oracle t y f po nb c inc rm base dT r hcfg hpa
    have hnb : 1 ≤ nb := by
      rcases hcfg with ⟨_, h⟩ | ⟨_, _, h⟩
      · exact h
      · omega
    have hcnb : c ≠ 0 → 2 ≤ nb := by
      intro hc
      rcases hcfg with ⟨h0, _⟩ | ⟨_, _, h⟩
      · exact absurd h0 hc
      · exact h
    have h360 : (0 : ℚ) < 360 := by norm_num
    obtain ⟨binned, hbn, hr⟩ :=
      array_ok_struct oracle t y f po nb c inc rm base dT r
        (checkedOffset_ok h360 hcfg) hpa
    subst hr
    exact assembleArray_c9 nb hnb c inc base binned _
      (binnedArray_ok_length oracle t y f nb _ _ rm base dT binned hbn)
      hcnb
      (by
        intro hc0 m hm
        subst hc0
        exact buildGrid_mids_pos_of_no_offset 360 h360 nb hnb m hm)
      (buildGrid_mids_length 360 nb c)
      (buildGrid_mids_bounds 360 h360 nb hnb c)
      (buildGrid_mids_nodup 360 h360 nb hnb c)
  · intro t y f po nb c inc r hcfg hpa
    have hnb : 1 ≤ nb := by
      rcases hcfg with ⟨_, h⟩ | ⟨_, _, h⟩
      · exact h
      · omega
    have hcnb : c ≠ 0 → 2 ≤ nb := by
      intro hc
      rcases hcfg with ⟨h0, _⟩ | ⟨_, _, h⟩
      · exact absurd h0 hc
      · exact h
    have h1 : (0 : ℚ) < 1 := by norm_num
    obtain ⟨mc, hrf, hr⟩ :=
      field_ok_struct t y f po nb c inc r (checkedOffset_ok h1 hcfg) hpa
    subst hr
    exact assembleField_c9 nb hnb inc _ _ mc.1 mc.2
      (fieldBinned_ne_nil t y f nb c hnb hcnb)
      (buildGrid_mids_length 1 nb c)
      (buildGrid_mids_bounds 1 h1 nb hnb c)
      (buildGrid_mids_nodup 1 h1 nb hnb c)

/-- Concrete array result used by the C9 witness (wraparound duplicate
present). -/
def c9ResA : PAResult :=
  { bin_midpoints := [0, 180, 360]
    phase_averaged_mean := [5, 3/2, 5]
    phase_averaged_var := [0, 1/4, 0]
    bin_counts := [2, 1, 2] }

/-- Concrete field result used by the C9 witness (no duplicate;
two-component samples, so `np.cov` is not squeezed and the run completes). -/
def c9ResF : PAFieldResult :=
  { bin_midpoints := [1/4, 3/4]
    phase_averaged_mean := [[some 2, some 3], [none, none]]
    phase_averaged_covariance :=
      [[[some 2, some 2], [some 2, some 2]], [[none, none], [none, none]]]
    bin_counts := [2, 1, 0] }

/-- Witness for C9: a duplicate-producing array run (offset = half a bin
width) and a duplicate-free field run. -/
theorem c9_midpoints_ascending_dup_witness :
    ValidConfig 360 2 90
      ∧ (phase_average_array zeroAngle [0, 5/18, 5/9] [5, 1, 2] 1 0 2 (some 90)
          true false "iter" none = Except.ok c9ResA)
      ∧ (c9ResA.bin_midpoints.getLastD 0 = 360 →
          c9ResA.bin_midpoints.dropLast.Pairwise (· < ·)
          ∧ c9ResA.bin_midpoints.getLastD 0 = c9ResA.bin_midpoints.headD 0 + 360
          ∧ c9ResA.phase_averaged_mean.getLastD 0
            = c9ResA.phase_averaged_mean.headD 0
          ∧ c9ResA.phase_averaged_var.getLastD 0
            = c9ResA.phase_averaged_var.headD 0
          ∧ c9ResA.bin_counts.getLastD 0 = c9ResA.bin_counts.headD 0)
      ∧ ValidConfig 1 2 0
      ∧ (phase_average_field [0, 1/4, 1/2] [[1, 2], [3, 4], [5, 6]] 1 0 2
          (some 0) true = Except.ok c9ResF)
      ∧ (c9ResF.bin_midpoints.getLastD 0 ≠ 1 →
          c9ResF.bin_midpoints.Pairwise (· < ·)) := by
  refine ⟨by with_unfolding_all decide, by with_unfolding_all decide, ?_,
    by with_unfolding_all decide, by with_unfolding_all decide, ?_⟩
  · exact (c9_midpoints_ascending_dup.1 zeroAngle [0, 5/18, 5/9] [5, 1, 2] 1 0
      2 90 true false "iter" none c9ResA (by with_unfolding_all decide)
      (by with_unfolding_all decide)).2
  · exact (c9_midpoints_ascending_dup.2 [0, 1/4, 1/2] [[1, 2], [3, 4], [5, 6]]
      1 0 2 0 true c9ResF (by with_unfolding_all decide)
      (by with_unfolding_all decide)).1

end Amtools
